import Mathlib

/-!
# Verification of the bilingual revision-sync engine

Shallow embedding of the core of `src/applier.py` and `src/extractor.py`
(tokenizer, word-level diff via Python's `difflib.SequenceMatcher`,
revision-id allocation, track-changes XML synthesis, cell text extraction)
together with proofs of the specification claims.

Python strings are modelled as `List Char` (a Python `str` is a sequence of
code points).  The external `jieba` segmenter is modelled as an abstract
function parameter `seg`, together with the Boolean `JIEBA_AVAILABLE` flag;
theorems that depend on the segmenter take its losslessness as a hypothesis.
-/

/-- A Python string: a sequence of code points. -/
abbrev Str := List Char

/-- Code points of a Lean string literal, used to write concrete `Str` values. -/
def strOf (s : String) : Str := s.data

/-- Python's `\s` character class (the whitespace code points recognised by
`re.split(r'(\s+)', text)` in unicode mode). -/
def isPySpace (c : Char) : Bool :=
  let n := c.toNat
  n = 0x20 || n = 0x09 || n = 0x0a || n = 0x0d || n = 0x0b || n = 0x0c ||
  (0x1c ≤ n && n ≤ 0x1f) || n = 0x85 || n = 0xa0 || n = 0x1680 ||
  (0x2000 ≤ n && n ≤ 0x200a) || n = 0x2028 || n = 0x2029 || n = 0x202f ||
  n = 0x205f || n = 0x3000

/-- Membership in the regex class U+4E00..U+9FFF used by `detect_language`. -/
def isCJKChar (c : Char) : Bool :=
  0x4e00 ≤ c.toNat && c.toNat ≤ 0x9fff

/-- `detect_language` from `applier.py`: counts characters matching
`[一-鿿]`, counts `len(text.replace(' ', ''))` (only U+0020 removed),
returns `'zh'` (here `true`) iff `total_chars ≠ 0` and
`chinese_chars / total_chars > 0.3`.  The Python float comparison
`chinese/total > 0.3` is modelled by the exact rational comparison
`10 * chinese > 3 * total`. -/
def detect_language (text : Str) : Bool :=
  let chinese_chars := (text.filter isCJKChar).length
  let total_chars := (text.filter (fun c => ¬ (c = ' '))).length
  if total_chars = 0 then false
  else decide (3 * total_chars < 10 * chinese_chars)

/-- Maximal runs of characters with equal `p`-class, in order.  This is the
model of `re.split(r'(\s+)', text)` followed by dropping empty pieces: the
result of that split, with empties removed, is exactly the list of maximal
runs of whitespace / non-whitespace characters in order. -/
def runs (p : Char → Bool) : Str → List Str
  | [] => []
  | [c] => [[c]]
  | c :: d :: cs =>
    match runs p (d :: cs) with
    | [] => [[c]]
    | r :: rs => if p c = p d then (c :: r) :: rs else [c] :: r :: rs

/-- `tokenize` from `applier.py`.
`seg` models `jieba.cut` (list of segments), `jiebaAvailable` models the
module-level `JIEBA_AVAILABLE` flag.
* dense-script (`'zh'`) mode with jieba: `[t for t in jieba.cut(text) if t]`;
* dense-script mode without jieba: `list(text)` (one code point per token);
* delimiter (`'en'`) mode: `[t for t in re.split(r'(\s+)', text) if t]`. -/
def tokenize (seg : Str → List Str) (jiebaAvailable : Bool) (text : Str) :
    List Str :=
  if detect_language text then
    if jiebaAvailable then (seg text).filter (fun t => ¬ (t = []))
    else text.map (fun c => [c])
  else
    (runs isPySpace text).filter (fun t => ¬ (t = []))

/-! ## Tokenizer lemmas -/

theorem runs_ne_nil (p : Char → Bool) :
    ∀ (c : Char) (cs : Str), runs p (c :: cs) ≠ [] := by
  intro c cs
  match cs with
  | [] => simp [runs]
  | d :: cs' =>
    rw [runs]
    cases h : runs p (d :: cs') with
    | nil => simp
    | cons r rs => by_cases hpc : p c = p d <;> simp [hpc]

theorem runs_join (p : Char → Bool) : ∀ (l : Str), (runs p l).flatten = l := by
  intro l
  induction l with
  | nil => simp [runs]
  | cons c cs ih =>
    match cs with
    | [] => simp [runs]
    | d :: cs' =>
      rw [runs]
      cases h : runs p (d :: cs') with
      | nil => exact absurd h (runs_ne_nil p d cs')
      | cons r rs =>
        rw [h] at ih
        by_cases hpc : p c = p d <;> simp_all

theorem runs_mem_ne_nil (p : Char → Bool) :
    ∀ (l : Str) (t : Str), t ∈ runs p l → t ≠ [] := by
  intro l
  induction l with
  | nil => simp [runs]
  | cons c cs ih =>
    match cs with
    | [] => intro t ht; rw [runs] at ht; simp at ht; simp [ht]
    | d :: cs' =>
      intro t ht
      rw [runs] at ht
      cases h : runs p (d :: cs') with
      | nil => exact absurd h (runs_ne_nil p d cs')
      | cons r rs =>
        rw [h] at ht
        by_cases hpc : p c = p d <;> simp [hpc] at ht
        · rcases ht with h1 | h2
          · simp [h1]
          · exact ih t (by rw [h]; exact List.mem_cons_of_mem _ h2)
        · rcases ht with h1 | h2
          · simp [h1]
          · exact ih t (by rw [h]; exact List.mem_cons.mpr h2)

theorem filter_ne_nil_flatten (l : List Str) :
    (l.filter (fun t => !decide (t = []))).flatten = l.flatten := by
  induction l with
  | nil => rfl
  | cons x xs ih =>
    by_cases hx : x = []
    · rw [List.filter_cons_of_neg (by simp [hx]), ih, hx]
      simp
    · rw [List.filter_cons_of_pos (by simp [hx])]
      simp [ih]

theorem flatten_map_singleton {α : Type} (l : List α) :
    (l.map (fun c => [c])).flatten = l := by
  induction l <;> simp_all

/-- Losslessness of `tokenize`, given losslessness of the segmenter. -/
theorem tokenize_join (seg : Str → List Str) (jb : Bool) (text : Str)
    (hseg : ∀ s, (seg s).flatten = s) :
    (tokenize seg jb text).flatten = text := by
  cases hzh : detect_language text with
  | true =>
    cases jb with
    | true => simp [tokenize, hzh, filter_ne_nil_flatten, hseg]
    | false => simp [tokenize, hzh, flatten_map_singleton]
  | false => simp [tokenize, hzh, filter_ne_nil_flatten, runs_join]

/-- Every token produced by `tokenize` is non-empty. -/
theorem tokenize_mem_ne_nil (seg : Str → List Str) (jb : Bool) (text : Str) :
    ∀ t ∈ tokenize seg jb text, t ≠ [] := by
  intro t ht
  cases hzh : detect_language text with
  | true =>
    cases jb with
    | true =>
      simp [tokenize, hzh] at ht
      simpa using ht.2
    | false =>
      simp [tokenize, hzh] at ht
      obtain ⟨c, _, hc⟩ := ht
      simp [← hc]
  | false =>
    simp [tokenize, hzh] at ht
    exact runs_mem_ne_nil isPySpace text t ht.1

/-- Empty input tokenizes to the empty token sequence. -/
theorem tokenize_nil (seg : Str → List Str) (jb : Bool) :
    tokenize seg jb [] = [] := by
  cases jb <;> simp [tokenize, detect_language, runs]

/-! ## `difflib.SequenceMatcher` (called with `isjunk=None`, `autojunk=True`)

The matcher is embedded exactly as CPython's `difflib` implements it.
Since `word_diff` constructs `SequenceMatcher(None, ...)`, the junk set
`bjunk` is empty; the two junk-extension loops of `find_longest_match`
never fire and are therefore omitted, while the "popular" element filter
(`autojunk`) is modelled in `b2j`. -/

/-- A token: an element of the tokenized text. -/
abbrev Tok := Str

/-- The ascending list of positions of `x` in `b` (the lists built by
`SequenceMatcher.__chain_b` before junk purging). -/
def positions (b : List Tok) (x : Tok) : List Nat :=
  (List.range b.length).filter (fun j => b.get? j = some x)

/-- `autojunk` popularity: when `len(b) >= 200`, elements occurring more
than `len(b) // 100 + 1` times are purged from `b2j`. -/
def isPopular (b : List Tok) (x : Tok) : Bool :=
  decide (200 ≤ b.length) && decide (b.length / 100 + 1 < (positions b x).length)

/-- `b2j.get(x, [])` after the popular purge. -/
def b2j (b : List Tok) (x : Tok) : List Nat :=
  if isPopular b x then [] else positions b x

/-- The running best match `(besti, bestj, bestsize)` of
`find_longest_match`. -/
structure FlmBest where
  besti : Nat
  bestj : Nat
  bestsize : Nat
deriving Repr, DecidableEq

/-- Inner loop of the `find_longest_match` dynamic program: one pass over
`b2j.get(a[i], [])` (ascending), threading `newj2len` and the best match.
`jold` is the previous row's `j2len` (`j2len.get(j-1, 0)`; the Python key
`-1` that arises for `j = 0` is never present, hence the `j = 0` case).
`i+1-k` and `j+1-k` are Python's `i-k+1` and `j-k+1` (non-negative here
because a chain of length `k` ending at `(i, j)` has `k ≤ i+1` and
`k ≤ j+1`). -/
def flmInner (i blo bhi : Nat) (jold : Nat → Nat) :
    List Nat → (Nat → Nat) → FlmBest → ((Nat → Nat) × FlmBest)
  | [], jnew, best => (jnew, best)
  | j :: js, jnew, best =>
    if j < blo then flmInner i blo bhi jold js jnew best
    else if bhi ≤ j then (jnew, best)
    else
      let k := (if j = 0 then 0 else jold (j - 1)) + 1
      let jnew' := fun j' => if j' = j then k else jnew j'
      let best' := if best.bestsize < k then ⟨i + 1 - k, j + 1 - k, k⟩ else best
      flmInner i blo bhi jold js jnew' best'

/-- Outer loop `for i in range(alo, ahi)`: `cnt` counts the remaining
iterations (`ahi - alo` at the start), `i` is the current index. -/
def flmOuter (a b : List Tok) (blo bhi : Nat) :
    Nat → Nat → (Nat → Nat) → FlmBest → FlmBest
  | _, 0, _, best => best
  | i, cnt + 1, jold, best =>
    let js := match a.get? i with
      | some x => b2j b x
      | none => []
    let r := flmInner i blo bhi jold js (fun _ => 0) best
    flmOuter a b blo bhi (i + 1) cnt r.1 r.2

/-- `a[i] == b[j]`, both indices in range. -/
def matchAt (a b : List Tok) (i j : Nat) : Bool :=
  match a.get? i, b.get? j with
  | some x, some y => decide (x = y)
  | _, _ => false

/-- First extension loop of `find_longest_match`:
`while besti > alo and bestj > blo and a[besti-1] == b[bestj-1]:
besti, bestj, bestsize = besti-1, bestj-1, bestsize+1`
(the variant testing junk never fires since `bjunk` is empty).
Structured as recursion on `besti`, the quantity the loop decreases. -/
def extLeftN (a b : List Tok) (alo blo : Nat) : Nat → Nat → Nat → FlmBest
  | 0, bestj, size => ⟨0, bestj, size⟩
  | bi + 1, bestj, size =>
    if alo < bi + 1 ∧ blo < bestj ∧ matchAt a b bi (bestj - 1) then
      extLeftN a b alo blo bi (bestj - 1) (size + 1)
    else ⟨bi + 1, bestj, size⟩

def extLeft (a b : List Tok) (alo blo : Nat) (best : FlmBest) : FlmBest :=
  extLeftN a b alo blo best.besti best.bestj best.bestsize

/-- Second extension loop of `find_longest_match`:
`while besti+bestsize < ahi and bestj+bestsize < bhi and
a[besti+bestsize] == b[bestj+bestsize]: bestsize += 1`.
Structured as recursion on `ahi - (besti + bestsize)`, the quantity the
loop decreases; the counter starts at exactly that value, so the guard
`besti + bestsize < ahi` is precisely `0 < fuel`. -/
def extRightN (a b : List Tok) (bhi besti bestj : Nat) : Nat → Nat → FlmBest
  | 0, size => ⟨besti, bestj, size⟩
  | fuel + 1, size =>
    if bestj + size < bhi ∧ matchAt a b (besti + size) (bestj + size) then
      extRightN a b bhi besti bestj fuel (size + 1)
    else ⟨besti, bestj, size⟩

def extRight (a b : List Tok) (ahi bhi : Nat) (best : FlmBest) : FlmBest :=
  extRightN a b bhi best.besti best.bestj
    (ahi - (best.besti + best.bestsize)) best.bestsize

/-- `SequenceMatcher.find_longest_match(alo, ahi, blo, bhi)` with
`isjunk=None`. -/
def find_longest_match (a b : List Tok) (alo ahi blo bhi : Nat) : FlmBest :=
  extRight a b ahi bhi
    (extLeft a b alo blo
      (flmOuter a b blo bhi alo (ahi - alo) (fun _ => 0) ⟨alo, blo, 0⟩))

/-! ### Bounds of `find_longest_match` -/

/-- Well-formedness of a running best match with respect to the region
`[alo, bound) × [blo, bhi)`. -/
def BestWF (alo blo bound bhi : Nat) (m : FlmBest) : Prop :=
  alo ≤ m.besti ∧ blo ≤ m.bestj ∧
  m.besti + m.bestsize ≤ bound ∧ m.bestj + m.bestsize ≤ bhi

theorem flmInner_wf (i alo blo bhi : Nat) (jold : Nat → Nat)
    (hold : ∀ j, jold j ≠ 0 → jold j + alo ≤ i ∧ jold j + blo ≤ j + 1)
    (hi : alo ≤ i) :
    ∀ (js : List Nat) (jnew : Nat → Nat) (best : FlmBest),
      (∀ j, jnew j ≠ 0 → jnew j + alo ≤ i + 1 ∧ jnew j + blo ≤ j + 1) →
      BestWF alo blo (i + 1) bhi best →
      (∀ j, (flmInner i blo bhi jold js jnew best).1 j ≠ 0 →
        (flmInner i blo bhi jold js jnew best).1 j + alo ≤ i + 1 ∧
        (flmInner i blo bhi jold js jnew best).1 j + blo ≤ j + 1) ∧
      BestWF alo blo (i + 1) bhi (flmInner i blo bhi jold js jnew best).2 := by
  intro js
  induction js with
  | nil => intro jnew best hn hb; exact ⟨hn, hb⟩
  | cons j js ih =>
    intro jnew best hn hb
    rw [flmInner]
    by_cases h1 : j < blo
    · simp only [h1, if_true]
      exact ih jnew best hn hb
    · by_cases h2 : bhi ≤ j
      · simp only [h1, h2, if_false, if_true]
        exact ⟨hn, hb⟩
      · simp only [h1, h2, if_false]
        have hjlo : blo ≤ j := Nat.le_of_not_lt h1
        have hjhi : j < bhi := Nat.lt_of_not_le h2
        set k := (if j = 0 then 0 else jold (j - 1)) + 1 with hk
        have hk_alo : k + alo ≤ i + 1 := by
          rw [hk]
          by_cases hj0 : j = 0
          · simp [hj0]; omega
          · simp only [hj0, if_false]
            by_cases hz : jold (j - 1) = 0
            · rw [hz]; omega
            · have := (hold (j - 1) hz).1; omega
        have hk_blo : k + blo ≤ j + 1 := by
          rw [hk]
          by_cases hj0 : j = 0
          · simp [hj0]; omega
          · simp only [hj0, if_false]
            by_cases hz : jold (j - 1) = 0
            · rw [hz]; omega
            · have := (hold (j - 1) hz).2; omega
        apply ih
        · intro j' hj'
          by_cases hjj : j' = j
          · subst hjj
            constructor
            · simpa using hk_alo
            · simpa using hk_blo
          · simp only [hjj, if_false] at hj' ⊢
            exact hn j' hj'
        · by_cases hfire : best.bestsize < k
          · simp only [hfire, if_true]
            refine ⟨?_, ?_, ?_, ?_⟩ <;> simp only [] <;> omega
          · simp only [hfire, if_false]
            exact hb

theorem flmOuter_wf (a b : List Tok) (alo blo bhi : Nat) :
    ∀ (cnt i : Nat) (jold : Nat → Nat) (best : FlmBest),
      alo ≤ i →
      (∀ j, jold j ≠ 0 → jold j + alo ≤ i ∧ jold j + blo ≤ j + 1) →
      BestWF alo blo i bhi best →
      BestWF alo blo (i + cnt) bhi (flmOuter a b blo bhi i cnt jold best) := by
  intro cnt
  induction cnt with
  | zero => intro i jold best _ _ hb; simpa [flmOuter] using hb
  | succ n ih =>
    intro i jold best hi hold hb
    rw [flmOuter]
    have hb1 : BestWF alo blo (i + 1) bhi best := by
      obtain ⟨x1, x2, x3, x4⟩ := hb
      exact ⟨x1, x2, by omega, x4⟩
    have h := flmInner_wf i alo blo bhi jold hold hi
      (match a.get? i with | some x => b2j b x | none => []) (fun _ => 0) best
      (by intro j hj; simp at hj) hb1
    have := ih (i + 1) _ _ (by omega)
      (by intro j hj; have := h.1 j hj; omega) h.2
    have harith : i + 1 + n = i + (n + 1) := by omega
    rw [harith] at this
    exact this

theorem extLeftN_wf (a b : List Tok) (alo blo bound bhi : Nat) :
    ∀ (bi bj sz : Nat),
      alo ≤ bi → blo ≤ bj → bi + sz ≤ bound → bj + sz ≤ bhi →
      BestWF alo blo bound bhi (extLeftN a b alo blo bi bj sz) := by
  intro bi
  induction bi with
  | zero =>
    intro bj sz h1 h2 h3 h4
    exact ⟨h1, h2, h3, h4⟩
  | succ n ih =>
    intro bj sz h1 h2 h3 h4
    rw [extLeftN]
    split
    · rename_i hcond
      exact ih (bj - 1) (sz + 1) (by omega) (by omega) (by omega) (by omega)
    · exact ⟨h1, h2, h3, h4⟩

theorem extRightN_wf (a b : List Tok) (alo blo ahi bhi bi bj : Nat)
    (h1 : alo ≤ bi) (h2 : blo ≤ bj) :
    ∀ (fuel sz : Nat), bi + sz + fuel ≤ ahi → bj + sz ≤ bhi →
      BestWF alo blo ahi bhi (extRightN a b bhi bi bj fuel sz) := by
  intro fuel
  induction fuel with
  | zero =>
    intro sz h3 h4
    exact ⟨h1, h2, by simpa using h3, h4⟩
  | succ n ih =>
    intro sz h3 h4
    rw [extRightN]
    split
    · rename_i hcond
      exact ih (sz + 1) (by omega) (by omega)
    · refine ⟨h1, h2, ?_, h4⟩
      show bi + sz ≤ ahi
      omega

/-- Bounds of `find_longest_match` on a well-formed region: the returned
match lies inside `[alo, ahi) × [blo, bhi)`. -/
theorem flm_wf (a b : List Tok) (alo ahi blo bhi : Nat)
    (ha : alo ≤ ahi) (hb : blo ≤ bhi) :
    BestWF alo blo ahi bhi (find_longest_match a b alo ahi blo bhi) := by
  unfold find_longest_match
  have h0 := flmOuter_wf a b alo blo bhi (ahi - alo) alo (fun _ => 0)
    ⟨alo, blo, 0⟩ (le_refl alo) (by intro j hj; simp at hj)
    ⟨le_refl alo, le_refl blo, by show alo + 0 ≤ alo; omega,
      by show blo + 0 ≤ bhi; omega⟩
  have harith : alo + (ahi - alo) = ahi := by omega
  rw [harith] at h0
  set m0 := flmOuter a b blo bhi alo (ahi - alo) (fun _ => 0) ⟨alo, blo, 0⟩
  obtain ⟨x1, x2, x3, x4⟩ := h0
  have h1 := extLeftN_wf a b alo blo ahi bhi m0.besti m0.bestj m0.bestsize
    x1 x2 x3 x4
  unfold extLeft
  set m1 := extLeftN a b alo blo m0.besti m0.bestj m0.bestsize
  obtain ⟨y1, y2, y3, y4⟩ := h1
  unfold extRight
  exact extRightN_wf a b alo blo ahi bhi m1.besti m1.bestj y1 y2
    (ahi - (m1.besti + m1.bestsize)) m1.bestsize (by omega) y4

theorem flmInner_no_store (i blo bhi : Nat) (jold : Nat → Nat)
    (hdeg : bhi ≤ blo) :
    ∀ (js : List Nat) (jnew : Nat → Nat) (best : FlmBest),
      (flmInner i blo bhi jold js jnew best).2 = best := by
  intro js
  induction js with
  | nil => intro jnew best; rfl
  | cons j js ih =>
    intro jnew best
    rw [flmInner]
    by_cases h1 : j < blo
    · simp only [h1, if_true]; exact ih _ _
    · by_cases h2 : bhi ≤ j
      · simp only [h1, h2, if_false, if_true]
      · omega

/-- On a degenerate region the matcher returns a zero-size match. -/
theorem flm_degenerate (a b : List Tok) (alo ahi blo bhi : Nat)
    (hdeg : ¬ (alo ≤ ahi ∧ blo ≤ bhi)) :
    (find_longest_match a b alo ahi blo bhi).bestsize = 0 := by
  unfold find_longest_match
  have hleft : ∀ bj, extLeftN a b alo blo alo bj 0 = ⟨alo, bj, 0⟩ := by
    intro bj
    cases halo : alo with
    | zero => rw [extLeftN]
    | succ n =>
      rw [extLeftN]
      rw [if_neg (by omega)]
  by_cases hab : alo ≤ ahi
  · have hbb : bhi < blo := by omega
    have houter : ∀ cnt i jold,
        flmOuter a b blo bhi i cnt jold ⟨alo, blo, 0⟩ = ⟨alo, blo, 0⟩ := by
      intro cnt
      induction cnt with
      | zero => intro i jold; rfl
      | succ n ih =>
        intro i jold
        rw [flmOuter]
        rw [flmInner_no_store _ _ _ _ (by omega)]
        exact ih _ _
    rw [houter]
    show (extRight a b ahi bhi (extLeftN a b alo blo alo blo 0)).bestsize = 0
    rw [hleft blo]
    show (extRightN a b bhi alo blo (ahi - (alo + 0)) 0).bestsize = 0
    cases hf : ahi - (alo + 0) with
    | zero => rw [extRightN]
    | succ n =>
      rw [extRightN, if_neg (by omega)]
  · have hcnt : ahi - alo = 0 := by omega
    rw [hcnt, flmOuter]
    show (extRight a b ahi bhi (extLeftN a b alo blo alo blo 0)).bestsize = 0
    rw [hleft blo]
    show (extRightN a b bhi alo blo (ahi - (alo + 0)) 0).bestsize = 0
    have hf : ahi - (alo + 0) = 0 := by omega
    rw [hf, extRightN]

/-! ### `get_matching_blocks` -/

/-- A region `(alo, ahi, blo, bhi)` of the recursion queue. -/
abbrev Region := Nat × Nat × Nat × Nat

/-- A matching block `(i, j, size)`. -/
abbrev Blk := Nat × Nat × Nat

/-- Queue measure used to show the `get_matching_blocks` loop terminates. -/
def regionMeasure (r : Region) : Nat :=
  (r.2.1 - r.1) + (r.2.2.2 - r.2.2.1) + 1

def queueMeasure (q : List Region) : Nat := (q.map regionMeasure).sum

theorem mbMeasure_step (a b : List Tok) (alo ahi blo bhi : Nat)
    (rest : List Region)
    (hk : 0 < (find_longest_match a b alo ahi blo bhi).bestsize) :
    queueMeasure
      ((if (find_longest_match a b alo ahi blo bhi).besti +
              (find_longest_match a b alo ahi blo bhi).bestsize < ahi ∧
            (find_longest_match a b alo ahi blo bhi).bestj +
              (find_longest_match a b alo ahi blo bhi).bestsize < bhi then
          [((find_longest_match a b alo ahi blo bhi).besti +
              (find_longest_match a b alo ahi blo bhi).bestsize, ahi,
            (find_longest_match a b alo ahi blo bhi).bestj +
              (find_longest_match a b alo ahi blo bhi).bestsize, bhi)]
        else []) ++
       (if alo < (find_longest_match a b alo ahi blo bhi).besti ∧
            blo < (find_longest_match a b alo ahi blo bhi).bestj then
          [(alo, (find_longest_match a b alo ahi blo bhi).besti,
            blo, (find_longest_match a b alo ahi blo bhi).bestj)]
        else []) ++ rest) <
      queueMeasure ((alo, ahi, blo, bhi) :: rest) := by
  have hwf : alo ≤ ahi ∧ blo ≤ bhi := by
    by_contra hc
    have := flm_degenerate a b alo ahi blo bhi hc
    omega
  have hbnd := flm_wf a b alo ahi blo bhi hwf.1 hwf.2
  obtain ⟨h1, h2, h3, h4⟩ := hbnd
  obtain ⟨hwa, hwb⟩ := hwf
  simp only [queueMeasure, List.map_append, List.sum_append, List.map_cons,
    List.sum_cons, List.map_nil, List.sum_nil, regionMeasure]
  split_ifs <;> simp only [List.map_cons, List.sum_cons, List.map_nil,
    List.sum_nil, regionMeasure] <;> omega

/-- The `while queue:` loop of `get_matching_blocks`.  Python pops from the
end of `queue` and pushes the left sub-region then the right sub-region; we
model the stack with its top at the head, so the right sub-region sits at
the head (it is popped first, exactly as in Python).  Found blocks are
appended to `acc` in discovery order. -/
def mbLoop (a b : List Tok) (q : List Region) (acc : List Blk) : List Blk :=
  match q with
  | [] => acc
  | (alo, ahi, blo, bhi) :: rest =>
    let m := find_longest_match a b alo ahi blo bhi
    if hk : 0 < m.bestsize then
      mbLoop a b
        ((if m.besti + m.bestsize < ahi ∧ m.bestj + m.bestsize < bhi then
            [(m.besti + m.bestsize, ahi, m.bestj + m.bestsize, bhi)] else []) ++
         (if alo < m.besti ∧ blo < m.bestj then
            [(alo, m.besti, blo, m.bestj)] else []) ++
         rest)
        (acc ++ [(m.besti, m.bestj, m.bestsize)])
    else
      mbLoop a b rest acc
termination_by queueMeasure q
decreasing_by
  · exact mbMeasure_step a b alo ahi blo bhi rest hk
  · simp only [queueMeasure, List.map_cons, List.sum_cons, regionMeasure]
    omega

/-- Structurally recursive twin of `mbLoop`, recursing on the queue
measure; `mbLoopF_eq` below shows it computes the same list, which makes
the block list computable by kernel reduction. -/
def mbLoopF (a b : List Tok) : Nat → List Region → List Blk → List Blk
  | _, [], acc => acc
  | 0, _ :: _, acc => acc
  | fuel + 1, (alo, ahi, blo, bhi) :: rest, acc =>
    let m := find_longest_match a b alo ahi blo bhi
    if 0 < m.bestsize then
      mbLoopF a b fuel
        ((if m.besti + m.bestsize < ahi ∧ m.bestj + m.bestsize < bhi then
            [(m.besti + m.bestsize, ahi, m.bestj + m.bestsize, bhi)] else []) ++
         (if alo < m.besti ∧ blo < m.bestj then
            [(alo, m.besti, blo, m.bestj)] else []) ++
         rest)
        (acc ++ [(m.besti, m.bestj, m.bestsize)])
    else
      mbLoopF a b fuel rest acc

theorem mbLoopF_eq (a b : List Tok) :
    ∀ (fuel : Nat) (q : List Region) (acc : List Blk),
      queueMeasure q ≤ fuel → mbLoopF a b fuel q acc = mbLoop a b q acc := by
  intro fuel
  induction fuel with
  | zero =>
    intro q acc hq
    match q with
    | [] => rw [mbLoopF, mbLoop]
    | r :: rest =>
      exfalso
      simp only [queueMeasure, List.map_cons, List.sum_cons, regionMeasure] at hq
      omega
  | succ n ih =>
    intro q acc hq
    match q with
    | [] => rw [mbLoopF, mbLoop]
    | (alo, ahi, blo, bhi) :: rest =>
      rw [mbLoopF, mbLoop]
      by_cases hk : 0 < (find_longest_match a b alo ahi blo bhi).bestsize
      · simp only [hk, if_true, dif_pos hk]
        apply ih
        have := mbMeasure_step a b alo ahi blo bhi rest hk
        omega
      · simp only [hk, if_false, dif_neg hk]
        apply ih
        simp only [queueMeasure, List.map_cons, List.sum_cons, regionMeasure] at hq ⊢
        omega

/-- Lexicographic order on matching blocks: Python's
`matching_blocks.sort()` sorts the `(i, j, size)` triples
lexicographically.  The blocks produced by the queue loop are pairwise
disjoint with pairwise distinct first components (proved below), so every
sorting algorithm — Python's stable sort as well as the insertion sort
used here — produces the same sorted list. -/
abbrev blkLe (x y : Blk) : Prop :=
  x.1 < y.1 ∨ (x.1 = y.1 ∧ (x.2.1 < y.2.1 ∨ (x.2.1 = y.2.1 ∧ x.2.2 ≤ y.2.2)))

instance : IsTotal Blk blkLe := ⟨by intro x y; unfold blkLe; omega⟩

instance : IsTrans Blk blkLe := ⟨by intro x y z; unfold blkLe; omega⟩

/-- The merge loop of `get_matching_blocks`: adjacent blocks are coalesced;
the first argument is the pending block `(i1, j1, k1)` (initially
`(0, 0, 0)`). -/
def mergeAdj : Blk → List Blk → List Blk
  | (i1, j1, k1), [] => if k1 ≠ 0 then [(i1, j1, k1)] else []
  | (i1, j1, k1), (i2, j2, k2) :: rest =>
    if i1 + k1 = i2 ∧ j1 + k1 = j2 then
      mergeAdj (i1, j1, k1 + k2) rest
    else
      (if k1 ≠ 0 then [(i1, j1, k1)] else []) ++ mergeAdj (i2, j2, k2) rest

/-- `SequenceMatcher.get_matching_blocks()`: run the queue loop on the full
region, sort, coalesce adjacent blocks, and append the terminating block
`(len(a), len(b), 0)`.  (The queue loop runs through its computable twin
`mbLoopF`; `mbLoopF_eq` shows this equals the `while` loop `mbLoop`.) -/
def get_matching_blocks (a b : List Tok) : List Blk :=
  mergeAdj (0, 0, 0)
    ((mbLoopF a b (queueMeasure [(0, a.length, 0, b.length)])
        [(0, a.length, 0, b.length)] []).insertionSort blkLe) ++
  [(a.length, b.length, 0)]

/-- One opcode `(tag, i1, i2, j1, j2)`. -/
abbrev Opcode := String × Nat × Nat × Nat × Nat

/-- The loop of `SequenceMatcher.get_opcodes()`. -/
def opLoop : Nat → Nat → List Blk → List Opcode
  | _, _, [] => []
  | i, j, (ai, bj, size) :: rest =>
    (if i < ai ∧ j < bj then [("replace", i, ai, j, bj)]
     else if i < ai then [("delete", i, ai, j, bj)]
     else if j < bj then [("insert", i, ai, j, bj)]
     else []) ++
    (if size ≠ 0 then [("equal", ai, ai + size, bj, bj + size)] else []) ++
    opLoop (ai + size) (bj + size) rest

/-- `SequenceMatcher.get_opcodes()`. -/
def get_opcodes (a b : List Tok) : List Opcode :=
  opLoop 0 0 (get_matching_blocks a b)

/-- `''.join(tokens[i1:i2])`. -/
def sliceJoin (ts : List Tok) (i1 i2 : Nat) : Str :=
  ((ts.drop i1).take (i2 - i1)).flatten

/-- Body of the `for op, i1, i2, j1, j2 in matcher.get_opcodes():` loop of
`word_diff`: the operations contributed by one opcode.  `'replace'` is
expanded into a delete followed by an insert; any other tag contributes
nothing (no `else` branch exists in the source). -/
def opcodeExpand (current_tokens target_tokens : List Tok) (oc : Opcode) :
    List (String × Str) :=
  if oc.1 = "equal" then [("equal", sliceJoin current_tokens oc.2.1 oc.2.2.1)]
  else if oc.1 = "delete" then [("delete", sliceJoin current_tokens oc.2.1 oc.2.2.1)]
  else if oc.1 = "insert" then [("insert", sliceJoin target_tokens oc.2.2.2.1 oc.2.2.2.2)]
  else if oc.1 = "replace" then
    [("delete", sliceJoin current_tokens oc.2.1 oc.2.2.1),
     ("insert", sliceJoin target_tokens oc.2.2.2.1 oc.2.2.2.2)]
  else []

/-- `word_diff` from `applier.py`: tokenize both texts, run the sequence
matcher, and turn each opcode into `('equal', …)`, `('delete', …)`,
`('insert', …)` operations. -/
def word_diff (seg : Str → List Str) (jb : Bool)
    (current_text target_after : Str) : List (String × Str) :=
  let current_tokens := tokenize seg jb current_text
  let target_tokens := tokenize seg jb target_after
  (get_opcodes current_tokens target_tokens).flatMap
    (opcodeExpand current_tokens target_tokens)

example : word_diff (fun t => [t]) false (strOf "") (strOf "") = [] := by decide

example :
    word_diff (fun t => [t]) false (strOf "hello world") (strOf "hello world") =
    [("equal", strOf "hello world")] := by decide

example :
    word_diff (fun t => [t]) false (strOf "a b") (strOf "a c") =
    [("equal", strOf "a "), ("delete", strOf "b"), ("insert", strOf "c")] := by
  decide

/-! ### Match correctness of `find_longest_match`: the returned block is an
actual matching block (`a[besti:besti+k] == b[bestj:bestj+k]`). -/

/-- The best match really matches. -/
def MatchBest (a b : List Tok) (m : FlmBest) : Prop :=
  ∀ t, t < m.bestsize → a.get? (m.besti + t) = b.get? (m.bestj + t)

/-- Support of the `j2len` row built at outer index `i`: a stored chain
value `v` at key `j` attests `v` pairwise equalities ending at `(i, j)`. -/
def Supp (a b : List Tok) (f : Nat → Nat) (bnd : Nat) : Prop :=
  ∀ j t, t < f j → t ≤ j ∧ t < bnd ∧ a.get? (bnd - 1 - t) = b.get? (j - t)

theorem flmInner_match (a b : List Tok) (i blo bhi : Nat) (jold : Nat → Nat)
    (hold : Supp a b jold i) :
    ∀ (js : List Nat) (jnew : Nat → Nat) (best : FlmBest),
      (∀ j ∈ js, b.get? j = a.get? i) →
      Supp a b jnew (i + 1) →
      MatchBest a b best →
      Supp a b (flmInner i blo bhi jold js jnew best).1 (i + 1) ∧
      MatchBest a b (flmInner i blo bhi jold js jnew best).2 := by
  intro js
  induction js with
  | nil => intro jnew best _ hs hm; exact ⟨hs, hm⟩
  | cons j js ih =>
    intro jnew best hjs hs hm
    rw [flmInner]
    by_cases h1 : j < blo
    · simp only [h1, if_true]
      exact ih jnew best (fun x hx => hjs x (List.mem_cons_of_mem _ hx)) hs hm
    · by_cases h2 : bhi ≤ j
      · simp only [h1, h2, if_false, if_true]
        exact ⟨hs, hm⟩
      · simp only [h1, h2, if_false]
        set k := (if j = 0 then 0 else jold (j - 1)) + 1 with hkdef
        have hkspec : ∀ t, t < k → t ≤ j ∧ t < i + 1 ∧
            a.get? (i - t) = b.get? (j - t) := by
          intro t ht
          match t with
          | 0 =>
            refine ⟨Nat.zero_le _, by omega, ?_⟩
            simpa using (hjs j (List.mem_cons_self j js)).symm
          | t' + 1 =>
            have htk : t' < (if j = 0 then 0 else jold (j - 1)) := by omega
            by_cases hj0 : j = 0
            · rw [hj0] at htk; simp at htk
            · rw [if_neg hj0] at htk
              obtain ⟨u1, u2, u3⟩ := hold (j - 1) t' htk
              refine ⟨by omega, by omega, ?_⟩
              have e1 : i - (t' + 1) = i - 1 - t' := by omega
              have e2 : j - (t' + 1) = j - 1 - t' := by omega
              rw [e1, e2]
              exact u3
        apply ih
        · exact fun x hx => hjs x (List.mem_cons_of_mem _ hx)
        · intro j' t ht
          by_cases hjj : j' = j
          · subst hjj
            simp only [if_pos rfl] at ht
            exact hkspec t ht
          · simp only [hjj, if_false] at ht
            exact hs j' t ht
        · by_cases hfire : best.bestsize < k
          · simp only [hfire, if_true]
            intro t ht
            have ht' : t < k := ht
            have hki : k ≤ i + 1 := by
              have := (hkspec (k - 1) (by omega)).2.1
              omega
            have hkj : k ≤ j + 1 := by
              have := (hkspec (k - 1) (by omega)).1
              omega
            show a.get? (i + 1 - k + t) = b.get? (j + 1 - k + t)
            obtain ⟨v1, v2, v3⟩ := hkspec (k - 1 - t) (by omega)
            have e1 : i + 1 - k + t = i - (k - 1 - t) := by omega
            have e2 : j + 1 - k + t = j - (k - 1 - t) := by omega
            rw [e1, e2]
            exact v3
          · simp only [hfire, if_false]
            exact hm

theorem flmOuter_match (a b : List Tok) (blo bhi : Nat) :
    ∀ (cnt i : Nat) (jold : Nat → Nat) (best : FlmBest),
      Supp a b jold i →
      MatchBest a b best →
      MatchBest a b (flmOuter a b blo bhi i cnt jold best) := by
  intro cnt
  induction cnt with
  | zero => intro i jold best _ hm; exact hm
  | succ n ih =>
    intro i jold best hold hm
    rw [flmOuter]
    have hjs : ∀ j ∈ (match a.get? i with
        | some x => b2j b x
        | none => []), b.get? j = a.get? i := by
      intro j hj
      cases hai : a.get? i with
      | none => rw [hai] at hj; simp at hj
      | some x =>
        rw [hai] at hj
        have hj' : j ∈ b2j b x := hj
        unfold b2j at hj'
        by_cases hp : isPopular b x
        · rw [if_pos hp] at hj'; simp at hj'
        · rw [if_neg hp] at hj'
          unfold positions at hj'
          have := List.of_mem_filter hj'
          simpa using this
    have h := flmInner_match a b i blo bhi jold hold _ (fun _ => 0) best hjs
      (by intro j t ht; simp at ht) hm
    exact ih (i + 1) _ _ h.1 h.2

theorem extLeftN_match (a b : List Tok) (alo blo : Nat) :
    ∀ (bi bj sz : Nat),
      (∀ t, t < sz → a.get? (bi + t) = b.get? (bj + t)) →
      MatchBest a b (extLeftN a b alo blo bi bj sz) := by
  intro bi
  induction bi with
  | zero => intro bj sz hm; exact hm
  | succ n ih =>
    intro bj sz hm
    rw [extLeftN]
    split
    · rename_i hcond
      obtain ⟨hc1, hc2, hc3⟩ := hcond
      apply ih
      intro t ht
      match t with
      | 0 =>
        simp only [Nat.add_zero]
        unfold matchAt at hc3
        cases ha : a.get? n with
        | none => rw [ha] at hc3; simp at hc3
        | some x =>
          cases hbq : b.get? (bj - 1) with
          | none => rw [ha, hbq] at hc3; simp at hc3
          | some y =>
            rw [ha, hbq] at hc3
            simp at hc3
            rw [hc3]
      | t' + 1 =>
        have e1 : n + (t' + 1) = n + 1 + t' := by omega
        have e2 : bj - 1 + (t' + 1) = bj + t' := by omega
        rw [e1, e2]
        exact hm t' (by omega)
    · exact fun t ht => hm t ht

theorem extRightN_match (a b : List Tok) (bhi bi bj : Nat) :
    ∀ (fuel sz : Nat),
      (∀ t, t < sz → a.get? (bi + t) = b.get? (bj + t)) →
      MatchBest a b (extRightN a b bhi bi bj fuel sz) := by
  intro fuel
  induction fuel with
  | zero => intro sz hm; exact hm
  | succ n ih =>
    intro sz hm
    rw [extRightN]
    split
    · rename_i hcond
      obtain ⟨hc1, hc2⟩ := hcond
      apply ih
      intro t ht
      by_cases hts : t < sz
      · exact hm t hts
      · have hteq : t = sz := by omega
        subst hteq
        unfold matchAt at hc2
        cases ha : a.get? (bi + t) with
        | none => rw [ha] at hc2; simp at hc2
        | some x =>
          cases hbq : b.get? (bj + t) with
          | none => rw [ha, hbq] at hc2; simp at hc2
          | some y =>
            rw [ha, hbq] at hc2
            simp at hc2
            rw [hc2]
    · exact fun t ht => hm t ht

/-- The block returned by `find_longest_match` is an actual match. -/
theorem flm_match (a b : List Tok) (alo ahi blo bhi : Nat) :
    MatchBest a b (find_longest_match a b alo ahi blo bhi) := by
  unfold find_longest_match
  have h0 : MatchBest a b
      (flmOuter a b blo bhi alo (ahi - alo) (fun _ => 0) ⟨alo, blo, 0⟩) := by
    apply flmOuter_match
    · intro j t ht; simp at ht
    · intro t ht; simp at ht
  set m0 := flmOuter a b blo bhi alo (ahi - alo) (fun _ => 0) ⟨alo, blo, 0⟩
  unfold extLeft
  have h1 : MatchBest a b (extLeftN a b alo blo m0.besti m0.bestj m0.bestsize) :=
    extLeftN_match a b alo blo m0.besti m0.bestj m0.bestsize h0
  set m1 := extLeftN a b alo blo m0.besti m0.bestj m0.bestsize
  unfold extRight
  exact extRightN_match a b bhi m1.besti m1.bestj
    (ahi - (m1.besti + m1.bestsize)) m1.bestsize h1

/-! ### Disjointness and ordering of the matching blocks -/

/-- `r` lies entirely before `s` in both dimensions. -/
def Rbefore (r s : Region) : Prop := r.2.1 ≤ s.1 ∧ r.2.2.2 ≤ s.2.2.1

/-- Two regions are comparable: one lies before the other. -/
def Rcomp (r s : Region) : Prop := Rbefore r s ∨ Rbefore s r

/-- `r` is a sub-region of `s`. -/
def Rsub (r s : Region) : Prop :=
  s.1 ≤ r.1 ∧ r.2.1 ≤ s.2.1 ∧ s.2.2.1 ≤ r.2.2.1 ∧ r.2.2.2 ≤ s.2.2.2

/-- The region a block occupies. -/
def blkRegion (x : Blk) : Region := (x.1, x.1 + x.2.2, x.2.1, x.2.1 + x.2.2)

/-- `alo ≤ ahi` and `blo ≤ bhi`. -/
def RegWF (r : Region) : Prop := r.1 ≤ r.2.1 ∧ r.2.2.1 ≤ r.2.2.2

/-- A block is an actual matching block of `a` and `b`. -/
def BlkMatch (a b : List Tok) (x : Blk) : Prop :=
  ∀ t, t < x.2.2 → a.get? (x.1 + t) = b.get? (x.2.1 + t)

theorem Rcomp_symm : Symmetric Rcomp := by
  intro r s h
  rcases h with h | h
  · exact Or.inr h
  · exact Or.inl h

theorem Rcomp_of_sub {r s x : Region} (hsub : Rsub s r) (h : Rcomp r x) :
    Rcomp s x := by
  unfold Rsub at hsub
  unfold Rcomp Rbefore at h ⊢
  omega

theorem Rsub_trans {r s t : Region} (h1 : Rsub r s) (h2 : Rsub s t) :
    Rsub r t := by
  unfold Rsub at *
  omega

theorem Rbefore_aux {s u : Region} {w : Region}
    (h1 : Rbefore s w) (hw : w.1 ≤ w.2.1 ∧ w.2.2.1 ≤ w.2.2.2)
    (h2 : Rbefore w u) : Rbefore s u := by
  unfold Rbefore at *
  omega

/-- Full invariant of the queue loop: blocks discovered by `mbLoop` are
non-empty actual matches, live inside `top`, and are pairwise comparable
(disjoint and ordered in both dimensions). -/
theorem mbLoop_inv (a b : List Tok) (top : Region) :
    ∀ (n : Nat) (q : List Region) (acc : List Blk), queueMeasure q = n →
      (∀ r ∈ q, RegWF r ∧ Rsub r top) →
      (∀ x ∈ acc, 0 < x.2.2 ∧ Rsub (blkRegion x) top ∧ BlkMatch a b x) →
      List.Pairwise Rcomp (q ++ acc.map blkRegion) →
      (∀ x ∈ mbLoop a b q acc,
        0 < x.2.2 ∧ Rsub (blkRegion x) top ∧ BlkMatch a b x) ∧
      List.Pairwise Rcomp ((mbLoop a b q acc).map blkRegion) := by
  intro n
  induction n using Nat.strong_induction_on with
  | _ n ih =>
    intro q acc hn hq hacc hpair
    match q with
    | [] =>
      rw [mbLoop]
      simp only [List.nil_append] at hpair
      exact ⟨hacc, hpair⟩
    | (alo, ahi, blo, bhi) :: rest =>
      rw [mbLoop]
      have hr := hq (alo, ahi, blo, bhi) (List.mem_cons_self _ _)
      obtain ⟨⟨hwa0, hwb0⟩, hsubtop⟩ := hr
      have hwa : alo ≤ ahi := hwa0
      have hwb : blo ≤ bhi := hwb0
      by_cases hk : 0 < (find_longest_match a b alo ahi blo bhi).bestsize
      · simp only [dif_pos hk]
        obtain ⟨h1, h2, h3, h4⟩ := flm_wf a b alo ahi blo bhi hwa hwb
        have hmatch := flm_match a b alo ahi blo bhi
        set m := find_longest_match a b alo ahi blo bhi with hm
        set blk : Blk := (m.besti, m.bestj, m.bestsize) with hblk
        set right : List Region :=
          (if m.besti + m.bestsize < ahi ∧ m.bestj + m.bestsize < bhi then
            [(m.besti + m.bestsize, ahi, m.bestj + m.bestsize, bhi)] else [])
          with hright
        set left : List Region :=
          (if alo < m.besti ∧ blo < m.bestj then
            [(alo, m.besti, blo, m.bestj)] else []) with hleft
        have hmeas : queueMeasure (right ++ left ++ rest) < n := by
          rw [← hn]
          exact mbMeasure_step a b alo ahi blo bhi rest hk
        have hblkwf : (blkRegion blk).1 ≤ (blkRegion blk).2.1 ∧
            (blkRegion blk).2.2.1 ≤ (blkRegion blk).2.2.2 := by
          constructor
          · show m.besti ≤ m.besti + m.bestsize
            omega
          · show m.bestj ≤ m.bestj + m.bestsize
            omega
        have hsub_r : ∀ s ∈ right, Rsub s (alo, ahi, blo, bhi) ∧ RegWF s := by
          intro s hs
          rw [hright] at hs
          split at hs
          · rename_i hc
            simp only [List.mem_singleton] at hs
            subst hs
            constructor
            · refine ⟨?_, ?_, ?_, ?_⟩
              · show alo ≤ m.besti + m.bestsize
                omega
              · show ahi ≤ ahi
                omega
              · show blo ≤ m.bestj + m.bestsize
                omega
              · show bhi ≤ bhi
                omega
            · constructor
              · show m.besti + m.bestsize ≤ ahi
                omega
              · show m.bestj + m.bestsize ≤ bhi
                omega
          · simp at hs
        have hsub_l : ∀ s ∈ left, Rsub s (alo, ahi, blo, bhi) ∧ RegWF s := by
          intro s hs
          rw [hleft] at hs
          split at hs
          · rename_i hc
            simp only [List.mem_singleton] at hs
            subst hs
            constructor
            · refine ⟨?_, ?_, ?_, ?_⟩
              · show alo ≤ alo
                omega
              · show m.besti ≤ ahi
                omega
              · show blo ≤ blo
                omega
              · show m.bestj ≤ bhi
                omega
            · constructor
              · show alo ≤ m.besti
                omega
              · show blo ≤ m.bestj
                omega
          · simp at hs
        have hsub_blk : Rsub (blkRegion blk) (alo, ahi, blo, bhi) := by
          refine ⟨?_, ?_, ?_, ?_⟩
          · show alo ≤ m.besti
            omega
          · show m.besti + m.bestsize ≤ ahi
            omega
          · show blo ≤ m.bestj
            omega
          · show m.bestj + m.bestsize ≤ bhi
            omega
        have hhead : ∀ x ∈ rest ++ acc.map blkRegion,
            Rcomp (alo, ahi, blo, bhi) x :=
          fun x hx => List.rel_of_pairwise_cons hpair hx
        have htail : List.Pairwise Rcomp (rest ++ acc.map blkRegion) :=
          hpair.of_cons
        have hLB : ∀ s ∈ left, Rbefore s (blkRegion blk) := by
          intro s hs
          rw [hleft] at hs
          split at hs
          · simp only [List.mem_singleton] at hs
            subst hs
            constructor
            · show m.besti ≤ m.besti
              omega
            · show m.bestj ≤ m.bestj
              omega
          · simp at hs
        have hBR : ∀ s ∈ right, Rbefore (blkRegion blk) s := by
          intro s hs
          rw [hright] at hs
          split at hs
          · simp only [List.mem_singleton] at hs
            subst hs
            constructor
            · show m.besti + m.bestsize ≤ m.besti + m.bestsize
              omega
            · show m.bestj + m.bestsize ≤ m.bestj + m.bestsize
              omega
          · simp at hs
        have hLR : ∀ s ∈ left, ∀ u ∈ right, Rbefore s u := by
          intro s hs u hu
          exact Rbefore_aux (hLB s hs) hblkwf (hBR u hu)
        have hnewpair :
            List.Pairwise Rcomp ((right ++ left ++ rest) ++
              (acc ++ [blk]).map blkRegion) := by
          have hstep : ([blkRegion blk] ++ (rest ++ acc.map blkRegion)).Perm
              ((rest ++ acc.map blkRegion) ++ [blkRegion blk]) :=
            List.perm_append_comm
          have h0 := hstep.append_left (right ++ left)
          have hsrc : List.Pairwise Rcomp
              ((right ++ left ++ [blkRegion blk]) ++ (rest ++ acc.map blkRegion)) := by
            rw [List.pairwise_append]
            refine ⟨?_, htail, ?_⟩
            · rw [List.pairwise_append]
              refine ⟨?_, ?_, ?_⟩
              · rw [List.pairwise_append]
                refine ⟨?_, ?_, ?_⟩
                · rw [hright]; split <;> simp
                · rw [hleft]; split <;> simp
                · intro x hx y hy
                  exact Or.inr (hLR y hy x hx)
              · simp
              · intro x hx y hy
                simp only [List.mem_singleton] at hy
                subst hy
                rcases List.mem_append.mp hx with hx | hx
                · exact Or.inr (hBR x hx)
                · exact Or.inl (hLB x hx)
            · intro x hx y hy
              have hsubx : Rsub x (alo, ahi, blo, bhi) := by
                rcases List.mem_append.mp hx with hx | hx
                · rcases List.mem_append.mp hx with hx | hx
                  · exact (hsub_r x hx).1
                  · exact (hsub_l x hx).1
                · simp only [List.mem_singleton] at hx
                  subst hx
                  exact hsub_blk
              exact Rcomp_of_sub hsubx (hhead y hy)
          have hgoalperm :
              ((right ++ left ++ [blkRegion blk]) ++ (rest ++ acc.map blkRegion)).Perm
              ((right ++ left ++ rest) ++ (acc ++ [blk]).map blkRegion) := by
            simp only [List.map_append, List.map_cons, List.map_nil]
            simpa [List.append_assoc] using h0
          exact (List.Perm.pairwise_iff (@Rcomp_symm) hgoalperm).mp hsrc
        exact ih (queueMeasure (right ++ left ++ rest)) hmeas
          (right ++ left ++ rest) (acc ++ [blk]) rfl
          (by
            intro r' hr'
            rcases List.mem_append.mp hr' with hr' | hr'
            · rcases List.mem_append.mp hr' with hr' | hr'
              · exact ⟨(hsub_r r' hr').2, Rsub_trans (hsub_r r' hr').1 hsubtop⟩
              · exact ⟨(hsub_l r' hr').2, Rsub_trans (hsub_l r' hr').1 hsubtop⟩
            · exact hq r' (List.mem_cons_of_mem _ hr'))
          (by
            intro x hx
            rcases List.mem_append.mp hx with hx | hx
            · exact hacc x hx
            · simp only [List.mem_singleton] at hx
              subst hx
              exact ⟨hk, Rsub_trans hsub_blk hsubtop, fun t ht => hmatch t ht⟩)
          hnewpair
      · simp only [dif_neg hk]
        have hmeas : queueMeasure rest < n := by
          rw [← hn]
          simp only [queueMeasure, List.map_cons, List.sum_cons, regionMeasure]
          omega
        exact ih (queueMeasure rest) hmeas rest acc rfl
          (fun r hr => hq r (List.mem_cons_of_mem _ hr)) hacc hpair.of_cons

/-- `x` advances to `y`: `y` starts at or after the end of `x` in both
dimensions. -/
def Bnext (x y : Blk) : Prop :=
  x.1 + x.2.2 ≤ y.1 ∧ x.2.1 + x.2.2 ≤ y.2.1

/-- After sorting, pairwise-comparable non-empty blocks are pairwise
ordered: lexicographic order plus disjointness forces full ordering. -/
theorem sorted_blocks_pairwise (raw : List Blk)
    (hcomp : List.Pairwise Rcomp (raw.map blkRegion))
    (hpos : ∀ x ∈ raw, 0 < x.2.2) :
    List.Pairwise Bnext (raw.insertionSort blkLe) := by
  have hperm : (raw.insertionSort blkLe).Perm raw :=
    List.perm_insertionSort blkLe raw
  have hsorted : List.Sorted blkLe (raw.insertionSort blkLe) :=
    List.sorted_insertionSort blkLe raw
  have hcomp2 : List.Pairwise Rcomp ((raw.insertionSort blkLe).map blkRegion) :=
    (List.Perm.pairwise_iff (@Rcomp_symm) (hperm.map blkRegion)).mpr hcomp
  have hcomp3 : List.Pairwise (fun x y => Rcomp (blkRegion x) (blkRegion y))
      (raw.insertionSort blkLe) := List.pairwise_map.mp hcomp2
  have hboth := List.Pairwise.and hsorted hcomp3
  apply hboth.imp_of_mem
  intro x y hx hy hxy
  obtain ⟨hle, hcmp⟩ := hxy
  rcases hcmp with hbef | hbef
  · exact ⟨hbef.1, hbef.2⟩
  · exfalso
    have hypos : 0 < y.2.2 := hpos y (hperm.mem_iff.mp hy)
    have hb1 : y.1 + y.2.2 ≤ x.1 := hbef.1
    unfold blkLe at hle
    omega

/-- The block list is a chain starting at `(i, j)`: block starts are
non-decreasing and at or after the running position. -/
def ChainBlocks : Nat → Nat → List Blk → Prop
  | _, _, [] => True
  | i, j, (ai, bj, k) :: rest => i ≤ ai ∧ j ≤ bj ∧ ChainBlocks (ai + k) (bj + k) rest

/-- Final `a`-position after consuming the blocks. -/
def endI : Nat → List Blk → Nat
  | i, [] => i
  | _, (ai, _, k) :: rest => endI (ai + k) rest

/-- Final `b`-position after consuming the blocks. -/
def endJ : Nat → List Blk → Nat
  | j, [] => j
  | _, (_, bj, k) :: rest => endJ (bj + k) rest

theorem endI_append_last (l : List Blk) (x : Blk) :
    ∀ i, endI i (l ++ [x]) = x.1 + x.2.2 := by
  induction l with
  | nil => intro i; rfl
  | cons y ys ih =>
    intro i
    match y with
    | (ai, bj, k) => simpa [endI] using ih (ai + k)

theorem endJ_append_last (l : List Blk) (x : Blk) :
    ∀ j, endJ j (l ++ [x]) = x.2.1 + x.2.2 := by
  induction l with
  | nil => intro j; rfl
  | cons y ys ih =>
    intro j
    match y with
    | (ai, bj, k) => simpa [endJ] using ih (bj + k)

/-- The merge loop produces a chain (with the terminator appended). -/
theorem mergeAdj_chain (la lb : Nat) :
    ∀ (l : List Blk) (p : Blk) (i j : Nat),
      List.Pairwise Bnext l →
      (∀ x ∈ l, x.1 + x.2.2 ≤ la ∧ x.2.1 + x.2.2 ≤ lb) →
      (∀ x ∈ l, Bnext p x) →
      i ≤ p.1 → j ≤ p.2.1 → p.1 + p.2.2 ≤ la → p.2.1 + p.2.2 ≤ lb →
      ChainBlocks i j (mergeAdj p l ++ [(la, lb, 0)]) := by
  intro l
  induction l with
  | nil =>
    intro p i j _ _ _ hip hjp hpla hplb
    match p with
    | (i1, j1, k1) =>
      rw [mergeAdj]
      by_cases hk1 : k1 ≠ 0
      · simp only [if_pos hk1, List.cons_append, List.nil_append]
        exact ⟨hip, hjp, hpla, hplb, trivial⟩
      · simp only [if_neg hk1, List.nil_append]
        simp only [ne_eq, Decidable.not_not] at hk1
        subst hk1
        refine ⟨by omega, by omega, trivial⟩
  | cons hd tl ih =>
    intro p i j hpair hbounds hpnext hip hjp hpla hplb
    match p, hd with
    | (i1, j1, k1), (i2, j2, k2) =>
      rw [mergeAdj]
      have hnext := hpnext (i2, j2, k2) (List.mem_cons_self _ _)
      have hbd := hbounds (i2, j2, k2) (List.mem_cons_self _ _)
      by_cases hadj : i1 + k1 = i2 ∧ j1 + k1 = j2
      · simp only [if_pos hadj]
        have hadj1 : i1 + k1 = i2 := hadj.1
        have hadj2 : j1 + k1 = j2 := hadj.2
        have hb1 : i2 + k2 ≤ la := hbd.1
        have hb2 : j2 + k2 ≤ lb := hbd.2
        apply ih (i1, j1, k1 + k2) i j hpair.of_cons
          (fun x hx => hbounds x (List.mem_cons_of_mem _ hx))
        · intro x hx
          have h2x := List.rel_of_pairwise_cons hpair hx
          have u1 : i2 + k2 ≤ x.1 := h2x.1
          have u2 : j2 + k2 ≤ x.2.1 := h2x.2
          exact ⟨by show i1 + (k1 + k2) ≤ x.1; omega,
            by show j1 + (k1 + k2) ≤ x.2.1; omega⟩
        · exact hip
        · exact hjp
        · show i1 + (k1 + k2) ≤ la
          omega
        · show j1 + (k1 + k2) ≤ lb
          omega
      · simp only [if_neg hadj]
        by_cases hk1 : k1 ≠ 0
        · simp only [if_pos hk1]
          have hshape :
              (([(i1, j1, k1)] ++ mergeAdj (i2, j2, k2) tl) ++ [(la, lb, 0)]) =
              (i1, j1, k1) :: (mergeAdj (i2, j2, k2) tl ++ [(la, lb, 0)]) := by
            simp
          rw [hshape]
          refine ⟨hip, hjp, ?_⟩
          apply ih (i2, j2, k2) (i1 + k1) (j1 + k1) hpair.of_cons
            (fun x hx => hbounds x (List.mem_cons_of_mem _ hx))
            (fun x hx => List.rel_of_pairwise_cons hpair hx)
          · exact hnext.1
          · exact hnext.2
          · exact hbd.1
          · exact hbd.2
        · simp only [if_neg hk1, List.nil_append]
          simp only [ne_eq, Decidable.not_not] at hk1
          apply ih (i2, j2, k2) i j hpair.of_cons
            (fun x hx => hbounds x (List.mem_cons_of_mem _ hx))
            (fun x hx => List.rel_of_pairwise_cons hpair hx)
          · have hip' : i ≤ i1 := hip
            have hn1 : i1 + k1 ≤ i2 := hnext.1
            show i ≤ i2
            omega
          · have hjp' : j ≤ j1 := hjp
            have hn2 : j1 + k1 ≤ j2 := hnext.2
            show j ≤ j2
            omega
          · exact hbd.1
          · exact hbd.2

/-- The merge loop only outputs actual matching blocks. -/
theorem mergeAdj_match (a b : List Tok) :
    ∀ (l : List Blk) (p : Blk), BlkMatch a b p → (∀ x ∈ l, BlkMatch a b x) →
      ∀ x ∈ mergeAdj p l, BlkMatch a b x := by
  intro l
  induction l with
  | nil =>
    intro p hp _ x hx
    match p with
    | (i1, j1, k1) =>
      rw [mergeAdj] at hx
      split at hx
      · simp only [List.mem_singleton] at hx
        subst hx
        exact hp
      · simp at hx
  | cons hd tl ih =>
    intro p hp hl x hx
    match p, hd with
    | (i1, j1, k1), (i2, j2, k2) =>
      rw [mergeAdj] at hx
      have hhd := hl (i2, j2, k2) (List.mem_cons_self _ _)
      by_cases hadj : i1 + k1 = i2 ∧ j1 + k1 = j2
      · rw [if_pos hadj] at hx
        apply ih (i1, j1, k1 + k2) ?_ (fun y hy => hl y (List.mem_cons_of_mem _ hy)) x hx
        intro t ht
        have ht' : t < k1 + k2 := ht
        by_cases htk : t < k1
        · exact hp t htk
        · have e1 : (i1, j1, k1 + k2).1 + t = i2 + (t - k1) := by
            show i1 + t = i2 + (t - k1)
            omega
          have e2 : (i1, j1, k1 + k2).2.1 + t = j2 + (t - k1) := by
            show j1 + t = j2 + (t - k1)
            omega
          rw [e1, e2]
          exact hhd (t - k1) (by show t - k1 < k2; omega)
      · rw [if_neg hadj] at hx
        rcases List.mem_append.mp hx with hx | hx
        · split at hx
          · simp only [List.mem_singleton] at hx
            subst hx
            exact hp
          · simp at hx
        · exact ih (i2, j2, k2) hhd (fun y hy => hl y (List.mem_cons_of_mem _ hy)) x hx

/-! ### Slices -/

theorem sliceJoin_refl (ts : List Tok) (i : Nat) : sliceJoin ts i i = [] := by
  simp [sliceJoin]

theorem sliceJoin_append (ts : List Tok) {i1 i2 i3 : Nat}
    (h12 : i1 ≤ i2) (h23 : i2 ≤ i3) :
    sliceJoin ts i1 i2 ++ sliceJoin ts i2 i3 = sliceJoin ts i1 i3 := by
  unfold sliceJoin
  rw [← List.flatten_append]
  congr 1
  have e : i3 - i1 = (i2 - i1) + (i3 - i2) := by omega
  rw [e, List.take_add]
  congr 2
  rw [List.drop_drop]
  congr 1
  omega

theorem sliceJoin_full (ts : List Tok) : sliceJoin ts 0 ts.length = ts.flatten := by
  simp [sliceJoin]

theorem sliceJoin_eq_of_match (ct tt : List Tok) (ai bj k : Nat)
    (h : ∀ t, t < k → ct.get? (ai + t) = tt.get? (bj + t)) :
    sliceJoin ct ai (ai + k) = sliceJoin tt bj (bj + k) := by
  unfold sliceJoin
  have e1 : ai + k - ai = k := by omega
  have e2 : bj + k - bj = k := by omega
  rw [e1, e2]
  congr 1
  apply List.ext_get?
  intro n
  by_cases hn : n < k
  · rw [List.get?_take hn, List.get?_take hn, List.get?_drop, List.get?_drop]
    exact h n hn
  · rw [List.get?_eq_none.mpr, List.get?_eq_none.mpr]
    · rw [List.length_take]
      omega
    · rw [List.length_take]
      omega

/-! ### Reconstruction of the two texts from the edit script -/

/-- Concatenated text of the `equal` and `delete` operations. -/
def scriptSrc (ops : List (String × Str)) : Str :=
  (ops.filter (fun p => p.1 = "equal" ∨ p.1 = "delete")).flatMap (fun p => p.2)

/-- Concatenated text of the `equal` and `insert` operations. -/
def scriptTgt (ops : List (String × Str)) : Str :=
  (ops.filter (fun p => p.1 = "equal" ∨ p.1 = "insert")).flatMap (fun p => p.2)

theorem scriptSrc_append (l1 l2 : List (String × Str)) :
    scriptSrc (l1 ++ l2) = scriptSrc l1 ++ scriptSrc l2 := by
  simp [scriptSrc, List.filter_append]

theorem scriptTgt_append (l1 l2 : List (String × Str)) :
    scriptTgt (l1 ++ l2) = scriptTgt l1 ++ scriptTgt l2 := by
  simp [scriptTgt, List.filter_append]

theorem endI_ge : ∀ (blocks : List Blk) (i j : Nat),
    ChainBlocks i j blocks → i ≤ endI i blocks ∧ j ≤ endJ j blocks := by
  intro blocks
  induction blocks with
  | nil => intro i j _; exact ⟨le_refl i, le_refl j⟩
  | cons hd rest ih =>
    intro i j hchain
    match hd, hchain with
    | (ai, bj, k), ⟨h1, h2, h3⟩ =>
      have := ih (ai + k) (bj + k) h3
      exact ⟨by rw [endI]; omega, by rw [endJ]; omega⟩

/-- The partition property of `get_opcodes`, at the level of the expanded
edit script: over a chain of matching blocks, the `equal`+`delete` slices
concatenate to the `a`-side range and the `equal`+`insert` slices to the
`b`-side range. -/
theorem opLoop_script (ct tt : List Tok) :
    ∀ (blocks : List Blk) (i j : Nat),
      ChainBlocks i j blocks →
      (∀ x ∈ blocks, BlkMatch ct tt x) →
      scriptSrc ((opLoop i j blocks).flatMap (opcodeExpand ct tt)) =
        sliceJoin ct i (endI i blocks) ∧
      scriptTgt ((opLoop i j blocks).flatMap (opcodeExpand ct tt)) =
        sliceJoin tt j (endJ j blocks) := by
  intro blocks
  induction blocks with
  | nil =>
    intro i j _ _
    constructor <;> simp [opLoop, scriptSrc, scriptTgt, endI, endJ, sliceJoin]
  | cons hd rest ih =>
    intro i j hchain hmatch
    match hd, hchain with
    | (ai, bj, k), ⟨hia, hjb, hch⟩ =>
      have hmhd : BlkMatch ct tt (ai, bj, k) := hmatch _ (List.mem_cons_self _ _)
      have ihr := ih (ai + k) (bj + k) hch
        (fun x hx => hmatch x (List.mem_cons_of_mem _ hx))
      have hEI := endI_ge rest (ai + k) (bj + k) hch
      rw [opLoop]
      rw [List.flatMap_append, List.flatMap_append,
        scriptSrc_append, scriptSrc_append, scriptTgt_append, scriptTgt_append]
      have hendI : endI i ((ai, bj, k) :: rest) = endI (ai + k) rest := rfl
      have hendJ : endJ j ((ai, bj, k) :: rest) = endJ (bj + k) rest := rfl
      rw [hendI, hendJ]
      -- the equal part
      have hequalS : scriptSrc ((if k ≠ 0 then
            [("equal", ai, ai + k, bj, bj + k)] else []).flatMap
            (opcodeExpand ct tt)) = sliceJoin ct ai (ai + k) := by
        by_cases hk : k = 0
        · subst hk
          simp [scriptSrc, opcodeExpand, sliceJoin]
        · simp only [ne_eq, hk, not_false_iff, if_true]
          simp [scriptSrc, opcodeExpand]
      have hequalT : scriptTgt ((if k ≠ 0 then
            [("equal", ai, ai + k, bj, bj + k)] else []).flatMap
            (opcodeExpand ct tt)) = sliceJoin tt bj (bj + k) := by
        by_cases hk : k = 0
        · subst hk
          simp [scriptTgt, opcodeExpand, sliceJoin]
        · simp only [ne_eq, hk, not_false_iff, if_true]
          simp only [List.flatMap_cons, List.flatMap_nil, List.append_nil]
          have : opcodeExpand ct tt ("equal", ai, ai + k, bj, bj + k) =
              [("equal", sliceJoin ct ai (ai + k))] := by
            simp [opcodeExpand]
          rw [this, sliceJoin_eq_of_match ct tt ai bj k hmhd]
          simp [scriptTgt]
      -- the gap part, case analysis on the tag
      by_cases hg1 : i < ai ∧ j < bj
      · simp only [if_pos hg1]
        have hgapS : scriptSrc ([("replace", i, ai, j, bj)].flatMap
            (opcodeExpand ct tt)) = sliceJoin ct i ai := by
          simp [scriptSrc, opcodeExpand]
        have hgapT : scriptTgt ([("replace", i, ai, j, bj)].flatMap
            (opcodeExpand ct tt)) = sliceJoin tt j bj := by
          simp [scriptTgt, opcodeExpand]
        rw [hgapS, hgapT, hequalS, hequalT, ihr.1, ihr.2]
        constructor
        · rw [sliceJoin_append ct (by omega : i ≤ ai) (by omega : ai ≤ ai + k),
            sliceJoin_append ct (by omega : i ≤ ai + k) hEI.1]
        · rw [sliceJoin_append tt (by omega : j ≤ bj) (by omega : bj ≤ bj + k),
            sliceJoin_append tt (by omega : j ≤ bj + k) hEI.2]
      · simp only [if_neg hg1]
        by_cases hg2 : i < ai
        · simp only [if_pos hg2]
          have hjeq : j = bj := by omega
          subst hjeq
          have hgapS : scriptSrc ([("delete", i, ai, j, j)].flatMap
              (opcodeExpand ct tt)) = sliceJoin ct i ai := by
            simp [scriptSrc, opcodeExpand]
          have hgapT : scriptTgt ([("delete", i, ai, j, j)].flatMap
              (opcodeExpand ct tt)) = [] := by
            simp [scriptTgt, opcodeExpand]
          rw [hgapS, hgapT, hequalS, hequalT, ihr.1, ihr.2]
          constructor
          · rw [sliceJoin_append ct (by omega : i ≤ ai) (by omega : ai ≤ ai + k),
              sliceJoin_append ct (by omega : i ≤ ai + k) hEI.1]
          · rw [List.nil_append,
              sliceJoin_append tt (by omega : j ≤ j + k) hEI.2]
        · simp only [if_neg hg2]
          have hieq : i = ai := by omega
          subst hieq
          by_cases hg3 : j < bj
          · simp only [if_pos hg3]
            have hgapS : scriptSrc ([("insert", i, i, j, bj)].flatMap
                (opcodeExpand ct tt)) = [] := by
              simp [scriptSrc, opcodeExpand]
            have hgapT : scriptTgt ([("insert", i, i, j, bj)].flatMap
                (opcodeExpand ct tt)) = sliceJoin tt j bj := by
              simp [scriptTgt, opcodeExpand]
            rw [hgapS, hgapT, hequalS, hequalT, ihr.1, ihr.2]
            constructor
            · rw [List.nil_append,
                sliceJoin_append ct (by omega : i ≤ i + k) hEI.1]
            · rw [sliceJoin_append tt (by omega : j ≤ bj) (by omega : bj ≤ bj + k),
                sliceJoin_append tt (by omega : j ≤ bj + k) hEI.2]
          · simp only [if_neg hg3]
            have hjeq : j = bj := by omega
            subst hjeq
            simp only [List.flatMap_nil]
            have hemptyS : scriptSrc ([] : List (String × Str)) = [] := rfl
            have hemptyT : scriptTgt ([] : List (String × Str)) = [] := rfl
            rw [hemptyS, hemptyT, List.nil_append, List.nil_append,
              hequalS, hequalT, ihr.1, ihr.2]
            constructor
            · rw [sliceJoin_append ct (by omega : i ≤ i + k) hEI.1]
            · rw [sliceJoin_append tt (by omega : j ≤ j + k) hEI.2]

/-- Combined specification of `get_matching_blocks`: the blocks form a
chain from `(0, 0)`, are all actual matches, and end exactly at
`(len(a), len(b))`. -/
theorem gmb_spec (a b : List Tok) :
    ChainBlocks 0 0 (get_matching_blocks a b) ∧
    (∀ x ∈ get_matching_blocks a b, BlkMatch a b x) ∧
    endI 0 (get_matching_blocks a b) = a.length ∧
    endJ 0 (get_matching_blocks a b) = b.length := by
  have hbridge : mbLoopF a b (queueMeasure [(0, a.length, 0, b.length)])
      [(0, a.length, 0, b.length)] [] =
      mbLoop a b [(0, a.length, 0, b.length)] [] :=
    mbLoopF_eq a b _ _ _ (le_refl _)
  have hinv := mbLoop_inv a b (0, a.length, 0, b.length)
    (queueMeasure [(0, a.length, 0, b.length)]) [(0, a.length, 0, b.length)] []
    rfl
    (by
      intro r hr
      simp only [List.mem_singleton] at hr
      subst hr
      constructor
      · exact ⟨by show (0 : Nat) ≤ a.length; omega,
          by show (0 : Nat) ≤ b.length; omega⟩
      · exact ⟨le_refl _, le_refl _, le_refl _, le_refl _⟩)
    (by intro x hx; simp at hx)
    (by simp)
  set raw := mbLoop a b [(0, a.length, 0, b.length)] [] with hraw
  obtain ⟨hblocks, hpairw⟩ := hinv
  have hpos : ∀ x ∈ raw, 0 < x.2.2 := fun x hx => (hblocks x hx).1
  have hsorted_pairwise := sorted_blocks_pairwise raw hpairw hpos
  have hperm : (raw.insertionSort blkLe).Perm raw :=
    List.perm_insertionSort blkLe raw
  set sorted := raw.insertionSort blkLe with hsorted
  have hsorted_bounds : ∀ x ∈ sorted,
      x.1 + x.2.2 ≤ a.length ∧ x.2.1 + x.2.2 ≤ b.length := by
    intro x hx
    have hsub := (hblocks x (hperm.mem_iff.mp hx)).2.1
    exact ⟨hsub.2.1, hsub.2.2.2⟩
  have hsorted_match : ∀ x ∈ sorted, BlkMatch a b x := by
    intro x hx
    exact (hblocks x (hperm.mem_iff.mp hx)).2.2
  have hchain := mergeAdj_chain a.length b.length sorted (0, 0, 0) 0 0
    hsorted_pairwise hsorted_bounds
    (fun x hx => ⟨by show 0 + 0 ≤ x.1; omega, by show 0 + 0 ≤ x.2.1; omega⟩)
    (by show (0 : Nat) ≤ 0; omega)
    (by show (0 : Nat) ≤ 0; omega)
    (by show 0 + 0 ≤ a.length; omega)
    (by show 0 + 0 ≤ b.length; omega)
  have hmerged_match : ∀ x ∈ mergeAdj (0, 0, 0) sorted, BlkMatch a b x := by
    apply mergeAdj_match a b sorted (0, 0, 0)
    · intro t ht
      have ht' : t < 0 := ht
      omega
    · exact hsorted_match
  have hgmb : get_matching_blocks a b =
      mergeAdj (0, 0, 0) sorted ++ [(a.length, b.length, 0)] := by
    unfold get_matching_blocks
    rw [hbridge]
  rw [hgmb]
  refine ⟨hchain, ?_, ?_, ?_⟩
  · intro x hx
    rcases List.mem_append.mp hx with hx | hx
    · exact hmerged_match x hx
    · simp only [List.mem_singleton] at hx
      subst hx
      intro t ht
      have ht' : t < 0 := ht
      omega
  · simpa using endI_append_last (mergeAdj (0, 0, 0) sorted) (a.length, b.length, 0) 0
  · simpa using endJ_append_last (mergeAdj (0, 0, 0) sorted) (a.length, b.length, 0) 0

/-- C1.  For every pair of input strings, the edit script returned by
`word_diff` satisfies the reconstruction invariant: the concatenation of
the texts of its `equal` and `delete` operations is exactly
`current_text`, and the concatenation of the texts of its `equal` and
`insert` operations is exactly `target_after`.  (The `jieba` segmenter is
abstract; its losslessness — concatenating `jieba.cut(s)` gives back `s` —
is the hypothesis `hseg`.) -/
theorem claim_C1_word_diff_reconstruction (seg : Str → List Str) (jb : Bool)
    (current_text target_after : Str)
    (hseg : ∀ s, (seg s).flatten = s) :
    scriptSrc (word_diff seg jb current_text target_after) = current_text ∧
    scriptTgt (word_diff seg jb current_text target_after) = target_after := by
  obtain ⟨hchain, hmatchall, hEI, hEJ⟩ :=
    gmb_spec (tokenize seg jb current_text) (tokenize seg jb target_after)
  have h := opLoop_script (tokenize seg jb current_text)
    (tokenize seg jb target_after)
    (get_matching_blocks (tokenize seg jb current_text)
      (tokenize seg jb target_after)) 0 0 hchain hmatchall
  rw [hEI, hEJ] at h
  have hwd : word_diff seg jb current_text target_after =
      (opLoop 0 0 (get_matching_blocks (tokenize seg jb current_text)
        (tokenize seg jb target_after))).flatMap
        (opcodeExpand (tokenize seg jb current_text)
          (tokenize seg jb target_after)) := rfl
  rw [hwd]
  rw [h.1, h.2, sliceJoin_full, sliceJoin_full]
  exact ⟨tokenize_join seg jb current_text hseg,
    tokenize_join seg jb target_after hseg⟩

/-- Witness for C1 at a concrete input. -/
theorem claim_C1_witness :
    scriptSrc (word_diff (fun t => [t]) false (strOf "a b") (strOf "a c")) =
      strOf "a b" ∧
    scriptTgt (word_diff (fun t => [t]) false (strOf "a b") (strOf "a c")) =
      strOf "a c" :=
  claim_C1_word_diff_reconstruction (fun t => [t]) false
    (strOf "a b") (strOf "a c") (fun s => by simp)

/-- C2.  `tokenize` is a lossless partition: concatenating the tokens in
order reproduces the input exactly, every token is non-empty, and empty
input yields the empty token sequence.  (`hseg` is the losslessness of the
external `jieba` segmenter, used only in dense-script mode.) -/
theorem claim_C2_tokenize_lossless (seg : Str → List Str) (jb : Bool)
    (text : Str) (hseg : ∀ s, (seg s).flatten = s) :
    (tokenize seg jb text).flatten = text ∧
    (∀ t ∈ tokenize seg jb text, t ≠ []) ∧
    (text = [] → tokenize seg jb text = []) :=
  ⟨tokenize_join seg jb text hseg, tokenize_mem_ne_nil seg jb text,
   fun h => by rw [h]; exact tokenize_nil seg jb⟩

/-- Witness for C2 at a concrete input. -/
theorem claim_C2_witness :
    (tokenize (fun t => [t]) false (strOf "hi  there")).flatten =
      strOf "hi  there" ∧
    (∀ t ∈ tokenize (fun t => [t]) false (strOf "hi  there"), t ≠ []) ∧
    (strOf "hi  there" = [] →
      tokenize (fun t => [t]) false (strOf "hi  there") = []) :=
  claim_C2_tokenize_lossless (fun t => [t]) false (strOf "hi  there")
    (fun s => by simp)

/-- C6.  The edit script returned by `word_diff` never contains an
operation labelled `'replace'` — every operation is `'equal'`, `'delete'`
or `'insert'` — and every `'replace'` opcode of the underlying sequence
matcher contributes exactly one delete followed immediately by one insert
to the script. -/
theorem claim_C6_replace_expanded (seg : Str → List Str) (jb : Bool)
    (current_text target_after : Str) :
    (∀ p ∈ word_diff seg jb current_text target_after,
      p.1 ≠ "replace" ∧ (p.1 = "equal" ∨ p.1 = "delete" ∨ p.1 = "insert")) ∧
    (∀ oc ∈ get_opcodes (tokenize seg jb current_text)
        (tokenize seg jb target_after),
      oc.1 = "replace" →
      ∃ l1 l2, word_diff seg jb current_text target_after =
        l1 ++ [("delete", sliceJoin (tokenize seg jb current_text) oc.2.1 oc.2.2.1),
               ("insert", sliceJoin (tokenize seg jb target_after)
                 oc.2.2.2.1 oc.2.2.2.2)] ++ l2) := by
  constructor
  · intro p hp
    have hp' : p ∈ (get_opcodes (tokenize seg jb current_text)
        (tokenize seg jb target_after)).flatMap
        (opcodeExpand (tokenize seg jb current_text)
          (tokenize seg jb target_after)) := hp
    obtain ⟨oc, _, hmem⟩ := List.mem_flatMap.mp hp'
    unfold opcodeExpand at hmem
    split_ifs at hmem <;> simp at hmem <;>
      first
        | exact ⟨by simp, by simp⟩
        | (subst hmem; exact ⟨by simp, by simp⟩)
        | (rcases hmem with hmem | hmem <;> subst hmem <;>
            exact ⟨by simp, by simp⟩)
  · intro oc hoc htag
    obtain ⟨l1, l2, hsplit⟩ := List.append_of_mem hoc
    refine ⟨l1.flatMap (opcodeExpand (tokenize seg jb current_text)
        (tokenize seg jb target_after)),
      l2.flatMap (opcodeExpand (tokenize seg jb current_text)
        (tokenize seg jb target_after)), ?_⟩
    have hwd : word_diff seg jb current_text target_after =
        (get_opcodes (tokenize seg jb current_text)
          (tokenize seg jb target_after)).flatMap
          (opcodeExpand (tokenize seg jb current_text)
            (tokenize seg jb target_after)) := rfl
    rw [hwd, hsplit, List.flatMap_append, List.flatMap_cons]
    have hexp : opcodeExpand (tokenize seg jb current_text)
        (tokenize seg jb target_after) oc =
        [("delete", sliceJoin (tokenize seg jb current_text) oc.2.1 oc.2.2.1),
         ("insert", sliceJoin (tokenize seg jb target_after)
           oc.2.2.2.1 oc.2.2.2.2)] := by
      unfold opcodeExpand
      rw [htag]
      simp
    rw [hexp]
    simp [List.append_assoc]

/-! ## Markup synthesis (`DiffBasedApplier._build_diff_xml`, `_escape_xml`)
and revision-id allocation (`RevisionApplier._get_next_revision_id`). -/

/-- `_escape_xml` escapes one character.  The Python code performs five
sequential `str.replace` calls, `&` first; since no produced entity
contains a metacharacter other than its own leading `&`, the sequential
replacement acts independently on each character of the original string
and equals this character-wise map. -/
def escapeChar (c : Char) : Str :=
  if c = '&' then strOf "&amp;"
  else if c = '<' then strOf "&lt;"
  else if c = '>' then strOf "&gt;"
  else if c = '"' then strOf "&quot;"
  else if c = '\'' then strOf "&apos;"
  else [c]

/-- `_escape_xml`. -/
def escape_xml (text : Str) : Str := text.flatMap escapeChar

/-- `text.startswith(' ') or text.endswith(' ')` — the condition under
which `space_attr` is set to `' xml:space="preserve"'`. -/
def needsPreserve (text : Str) : Bool :=
  decide (text.head? = some ' ') || decide (text.getLast? = some ' ')

/-- One emitted fragment of `_build_diff_xml`: a plain run (`equal`), a
`w:del` (with fresh id) or a `w:ins` (with fresh id). -/
inductive XmlPart where
  | run (text : Str) (preserve : Bool)
  | del (id : Nat) (date : Str) (text : Str) (preserve : Bool)
  | ins (id : Nat) (date : Str) (text : Str) (preserve : Bool)
deriving Repr, DecidableEq

def XmlPart.textOf : XmlPart → Str
  | .run t _ => t
  | .del _ _ t _ => t
  | .ins _ _ t _ => t

def XmlPart.preserveOf : XmlPart → Bool
  | .run _ p => p
  | .del _ _ _ p => p
  | .ins _ _ _ p => p

/-- The loop of `_build_diff_xml`: consumes the operation list, skipping
empty texts, emitting one part per operation and allocating
`self.next_revision_id` (returned updated) for each delete/insert. -/
def build_diff_parts : List (String × Str) → Str → Nat → (List XmlPart × Nat)
  | [], _, nid => ([], nid)
  | (op, text) :: rest, date, nid =>
    if text = [] then build_diff_parts rest date nid
    else if op = "equal" then
      let r := build_diff_parts rest date nid
      (XmlPart.run text (needsPreserve text) :: r.1, r.2)
    else if op = "delete" then
      let r := build_diff_parts rest date (nid + 1)
      (XmlPart.del nid date text (needsPreserve text) :: r.1, r.2)
    else if op = "insert" then
      let r := build_diff_parts rest date (nid + 1)
      (XmlPart.ins nid date text (needsPreserve text) :: r.1, r.2)
    else build_diff_parts rest date nid

/-- `str(id)`. -/
def natStr (n : Nat) : Str := (Nat.repr n).data

/-- The exact f-string template of `_build_diff_xml` for one part. -/
def renderPart (rsid : Str) (p : XmlPart) : Str :=
  match p with
  | .run text preserve =>
    strOf "<w:r>\n      <w:t" ++
    (if preserve then strOf " xml:space=\"preserve\"" else []) ++
    strOf ">" ++ escape_xml text ++ strOf "</w:t>\n    </w:r>"
  | .del id date text preserve =>
    strOf "<w:del w:id=\"" ++ natStr id ++
    strOf "\" w:author=\"Claude\" w:date=\"" ++ date ++
    strOf "\" w16du:dateUtc=\"" ++ date ++
    strOf "\">\n      <w:r w:rsidDel=\"" ++ rsid ++
    strOf "\">\n        <w:delText" ++
    (if preserve then strOf " xml:space=\"preserve\"" else []) ++
    strOf ">" ++ escape_xml text ++
    strOf "</w:delText>\n      </w:r>\n    </w:del>"
  | .ins id date text preserve =>
    strOf "<w:ins w:id=\"" ++ natStr id ++
    strOf "\" w:author=\"Claude\" w:date=\"" ++ date ++
    strOf "\" w16du:dateUtc=\"" ++ date ++
    strOf "\">\n      <w:r>\n        <w:t" ++
    (if preserve then strOf " xml:space=\"preserve\"" else []) ++
    strOf ">" ++ escape_xml text ++
    strOf "</w:t>\n      </w:r>\n    </w:ins>"

/-- `_build_diff_xml`: the joined XML string and the updated
`next_revision_id`. -/
def build_diff_xml (rsid : Str) (operations : List (String × Str))
    (date : Str) (nid : Nat) : Str × Nat :=
  let r := build_diff_parts operations date nid
  (List.intercalate (strOf "\n") (r.1.map (renderPart rsid)), r.2)

/-- `RevisionApplier._get_next_revision_id`: `ids` models the list of
numeric values of all `w:id="(\d+)"` matches in the raw `document.xml`;
the result is `max + 1`, or `0` when there are none. -/
def get_next_revision_id (ids : List Nat) : Nat :=
  match ids with
  | [] => 0
  | _ => ids.foldl max 0 + 1

/-- The revision ids carried by a part list, in order. -/
def emittedIds : List XmlPart → List Nat
  | [] => []
  | XmlPart.run _ _ :: ps => emittedIds ps
  | XmlPart.del id _ _ _ :: ps => id :: emittedIds ps
  | XmlPart.ins id _ _ _ :: ps => id :: emittedIds ps

/-- All ids emitted over a run: a sequence of `_build_diff_xml` calls
(each an operation list with its date) threading `next_revision_id`. -/
def runEmitted : List (List (String × Str) × Str) → Nat → List Nat
  | [], _ => []
  | (ops, date) :: calls, nid =>
    emittedIds (build_diff_parts ops date nid).1 ++
    runEmitted calls (build_diff_parts ops date nid).2

/-! ## The applier (`DiffBasedApplier.apply_diff_to_row`,
`apply_mapped_revisions`).  The document is modelled by the log of
`replace_node` calls performed on it (`replacements`); the result of
`_find_cell_content_node` is the abstract parameter `findNode`. -/

structure ApplierState where
  next_revision_id : Nat
  replacements : List (Nat × Str)
deriving Repr, DecidableEq

/-- `DiffBasedApplier.apply_diff_to_row`: returns the success flag and the
updated applier state.  Mutation happens only through the final
`replace_node`, recorded in `replacements`. -/
def apply_diff_to_row (seg : Str → List Str) (jb : Bool) (rsid : Str)
    (findNode : Option Nat) (st : ApplierState)
    (current_text target_after : Str) (date : Str) : Bool × ApplierState :=
  if current_text = target_after then (true, st)
  else
    let operations := word_diff seg jb current_text target_after
    if ¬ (operations.any (fun op => op.1 = "delete" ∨ op.1 = "insert")) then
      (true, st)
    else
      match findNode with
      | none => (false, st)
      | some node =>
        let r := build_diff_xml rsid operations date st.next_revision_id
        (true, ⟨r.2, st.replacements ++ [(node, r.1)]⟩)

/-- One entry of the mapper result list; `target_current` and
`target_after` model `result.get('target_current', '')` and
`result.get('target_after', '')` (an absent key yields `''` = `[]`). -/
structure MappedResult where
  row_index : Nat
  target_current : Str
  target_after : Str
deriving Repr, DecidableEq

/-- `DiffBasedApplier.apply_mapped_revisions`: iterates the mapper
results, skipping rows with empty `target_after` before doing anything
else, and counts successes (accumulator `count`, `0` at the entry point). -/
def apply_mapped_revisions (seg : Str → List Str) (jb : Bool) (rsid : Str)
    (findNode : Option Nat) (date : Str) :
    List MappedResult → ApplierState → Nat → (Nat × ApplierState)
  | [], st, count => (count, st)
  | r :: rest, st, count =>
    if r.target_after = [] then
      apply_mapped_revisions seg jb rsid findNode date rest st count
    else
      let s := apply_diff_to_row seg jb rsid findNode st
        r.target_current r.target_after date
      apply_mapped_revisions seg jb rsid findNode date rest s.2
        (if s.1 then count + 1 else count)

/-! ## Extractor (`RevisionExtractor._extract_text_versions_from_cell`,
`_extract_text_from_node`), over a `minidom`-style node tree. -/

/-- A `minidom` node: an element with a tag and ordered children, or a
text node. -/
inductive XNode where
  | elem (tag : String) (children : List XNode)
  | text (s : Str)

mutual
/-- `node.getElementsByTagName(t)`: all descendant elements with tag `t`,
in document (pre-)order, excluding the node itself. -/
def allByTag (t : String) : XNode → List XNode
  | .text _ => []
  | .elem _ cs => allByTagList t cs

def allByTagList (t : String) : List XNode → List XNode
  | [] => []
  | c :: cs =>
    (match c with
     | .elem tg _ => if tg = t then [c] else []
     | .text _ => []) ++ allByTag t c ++ allByTagList t cs
end

/-- `n.firstChild.nodeValue` when the first child is a text node (the only
case the extractor meets; `if t.firstChild:` skips childless nodes). -/
def firstTextChild : XNode → Option Str
  | .elem _ (.text s :: _) => some s
  | _ => none

/-- `_extract_text_from_node`: all `w:t` descendant texts in order, then
all `w:delText` descendant texts in order, concatenated. -/
def extract_text_from_node (node : XNode) : Str :=
  ((allByTag "w:t" node).filterMap firstTextChild).flatten ++
  ((allByTag "w:delText" node).filterMap firstTextChild).flatten

/-- The body of the inner loop of `_extract_text_versions_from_cell`:
given the direct children of one paragraph, the `(before, after,
has_revisions)` contribution of that paragraph.  Non-element children are
skipped; `w:r` text goes to both sides, `w:del` text only to `before`,
`w:ins` text only to `after`; any other tag is skipped silently. -/
def extractChildren : List XNode → (Str × Str × Bool)
  | [] => ([], [], false)
  | c :: cs =>
    let r := extractChildren cs
    match c with
    | .text _ => r
    | .elem tg _ =>
      if tg = "w:r" then
        (extract_text_from_node c ++ r.1, extract_text_from_node c ++ r.2.1, r.2.2)
      else if tg = "w:del" then
        (extract_text_from_node c ++ r.1, r.2.1, true)
      else if tg = "w:ins" then
        (r.1, extract_text_from_node c ++ r.2.1, true)
      else r

/-- The paragraph loop: a `'\n'` separator precedes every paragraph but
the first. -/
def extractParas : Bool → List XNode → (Str × Str × Bool)
  | _, [] => ([], [], false)
  | first, p :: ps =>
    let sep : Str := if first then [] else strOf "\n"
    let c := extractChildren (match p with | .elem _ cs => cs | .text _ => [])
    let r := extractParas false ps
    (sep ++ c.1 ++ r.1, sep ++ c.2.1 ++ r.2.1, c.2.2 || r.2.2)

/-- `_extract_text_versions_from_cell`. -/
def extract_text_versions_from_cell (cell : XNode) : Str × Str × Bool :=
  extractParas true (allByTag "w:p" cell)

/-! ### C5: extraction against the structured data model -/

/-- A revision span of the data model (§3 of the spec). -/
inductive Span where
  | unchanged (t : Str)
  | deleted (t : Str)
  | inserted (t : Str)

/-- Well-formed markup of one span. -/
def spanXml : Span → XNode
  | .unchanged t => .elem "w:r" [.elem "w:t" [.text t]]
  | .deleted t => .elem "w:del" [.elem "w:r" [.elem "w:delText" [.text t]]]
  | .inserted t => .elem "w:ins" [.elem "w:r" [.elem "w:t" [.text t]]]

def paraXml (p : List Span) : XNode := .elem "w:p" (p.map spanXml)

/-- Well-formed markup of a cell: direct paragraph children, each with
direct span children. -/
def cellXml (c : List (List Span)) : XNode := .elem "w:tc" (c.map paraXml)

/-- Spec-side `before` contribution of one span: Unchanged and Deleted
text belong to the before state. -/
def spanBefore : Span → Str
  | .unchanged t => t
  | .deleted t => t
  | .inserted _ => []

/-- Spec-side `after` contribution of one span: Unchanged and Inserted
text belong to the after state. -/
def spanAfter : Span → Str
  | .unchanged t => t
  | .deleted _ => []
  | .inserted t => t

def spanIsRev : Span → Bool
  | .unchanged _ => false
  | _ => true

/-- Spec-side joining of paragraph texts: one line break between
consecutive paragraphs (a boundary beyond the first paragraph contributes
exactly one `'\n'`). -/
def joinParas : List Str → Str
  | [] => []
  | [x] => x
  | x :: y :: xs => x ++ strOf "\n" ++ joinParas (y :: xs)

/-- Spec-side before text of a cell. -/
def specBefore (c : List (List Span)) : Str :=
  joinParas (c.map (fun p => (p.map spanBefore).flatten))

/-- Spec-side after text of a cell. -/
def specAfter (c : List (List Span)) : Str :=
  joinParas (c.map (fun p => (p.map spanAfter).flatten))

def specHasRev (c : List (List Span)) : Bool :=
  c.any (fun p => p.any spanIsRev)

theorem allByTag_spanXml_p (s : Span) : allByTag "w:p" (spanXml s) = [] := by
  cases s <;> rfl

theorem extract_run_node (t : Str) :
    extract_text_from_node (XNode.elem "w:r" [XNode.elem "w:t" [XNode.text t]]) = t := by
  simp [extract_text_from_node, allByTag, allByTagList, firstTextChild]

theorem extract_del_node (t : Str) :
    extract_text_from_node (XNode.elem "w:del"
      [XNode.elem "w:r" [XNode.elem "w:delText" [XNode.text t]]]) = t := by
  simp [extract_text_from_node, allByTag, allByTagList, firstTextChild]

theorem extract_ins_node (t : Str) :
    extract_text_from_node (XNode.elem "w:ins"
      [XNode.elem "w:r" [XNode.elem "w:t" [XNode.text t]]]) = t := by
  simp [extract_text_from_node, allByTag, allByTagList, firstTextChild]

theorem extractChildren_spans (p : List Span) :
    extractChildren (p.map spanXml) =
      ((p.map spanBefore).flatten, (p.map spanAfter).flatten, p.any spanIsRev) := by
  induction p with
  | nil => rfl
  | cons s rest ih =>
    cases s with
    | unchanged t =>
      simp only [List.map_cons, extractChildren, ih, spanXml]
      simp [extract_run_node t, spanBefore, spanAfter, spanIsRev]
    | deleted t =>
      simp only [List.map_cons, extractChildren, ih, spanXml]
      simp [extract_del_node t, spanBefore, spanAfter, spanIsRev]
    | inserted t =>
      simp only [List.map_cons, extractChildren, ih, spanXml]
      simp [extract_ins_node t, spanBefore, spanAfter, spanIsRev]

theorem allByTag_p_cell (c : List (List Span)) :
    allByTag "w:p" (cellXml c) = c.map paraXml := by
  unfold cellXml
  show allByTagList "w:p" (c.map paraXml) = c.map paraXml
  induction c with
  | nil => rfl
  | cons p rest ih =>
    have hpara : allByTag "w:p" (paraXml p) = [] := by
      show allByTagList "w:p" (p.map spanXml) = []
      induction p with
      | nil => rfl
      | cons s srest ihs =>
        simp only [List.map_cons, allByTagList, ihs, allByTag_spanXml_p]
        cases s <;> simp [spanXml]
    simp only [List.map_cons, allByTagList, hpara, ih]
    simp [paraXml]

/-- C5.  On a well-formed cell (direct paragraphs containing direct
spans), extraction walks paragraphs in order and direct child spans in
document order, appends Unchanged text to both accumulators, Deleted text
only to the before state, Inserted text only to the after state, and each
paragraph boundary beyond the first contributes exactly one line break to
both accumulators. -/
theorem claim_C5_extract_text_versions (c : List (List Span)) :
    extract_text_versions_from_cell (cellXml c) =
      (specBefore c, specAfter c, specHasRev c) := by
  unfold extract_text_versions_from_cell
  rw [allByTag_p_cell]
  have key : ∀ (cs : List (List Span)),
      extractParas false (cs.map paraXml) =
        ((cs.map (fun p => strOf "\n" ++ (p.map spanBefore).flatten)).flatten,
         (cs.map (fun p => strOf "\n" ++ (p.map spanAfter).flatten)).flatten,
         cs.any (fun p => p.any spanIsRev)) := by
    intro cs
    induction cs with
    | nil => rfl
    | cons p rest ih =>
      simp only [List.map_cons, extractParas, ih, paraXml]
      rw [extractChildren_spans]
      simp [List.append_assoc]
  match c with
  | [] => rfl
  | p :: rest =>
    simp only [List.map_cons, extractParas, paraXml]
    rw [extractChildren_spans, key]
    have hjoin : ∀ (x : Str) (xs : List Str),
        joinParas (x :: xs) = x ++ (xs.map (fun y => strOf "\n" ++ y)).flatten := by
      intro x xs
      induction xs generalizing x with
      | nil => simp [joinParas]
      | cons y ys ih => simp [joinParas, ih y, List.append_assoc]
    unfold specBefore specAfter specHasRev
    simp only [List.map_cons, hjoin, List.map_map]
    simp only [List.append_assoc]
    rfl

/-! ### C8: malformed span nesting -/

/-- A cell whose single paragraph contains a Deleted span with an Inserted
child — violating the nesting invariants of the data model. -/
def malformedDelCell (X Y : Str) : XNode :=
  .elem "w:tc" [.elem "w:p" [.elem "w:del"
    [.elem "w:r" [.elem "w:delText" [.text X]],
     .elem "w:ins" [.elem "w:r" [.elem "w:t" [.text Y]]]]]]

/-- C8 (amended).  Extraction never fails: on a Deleted span containing an
Inserted child it silently returns a guessed result, appending all
descendant text of the `w:del` (its `w:t` texts first, then its
`w:delText` texts) to `before_text` and nothing to `after_text`; no
`MalformedMarkup` error exists anywhere in the code. -/
theorem claim_C8_amended_no_validation (X Y : Str) :
    extract_text_versions_from_cell (malformedDelCell X Y) = (Y ++ X, [], true) := by
  simp [extract_text_versions_from_cell, malformedDelCell, allByTag,
    allByTagList, extractParas, extractChildren, extract_text_from_node,
    firstTextChild, strOf]

/-- C8 (counterexample).  At a concrete malformed cell the extractor
returns a definite (guessed) value — before = "YX", after = "",
has_revisions = true — instead of surfacing a `MalformedMarkup` error. -/
theorem claim_C8_counterexample :
    extract_text_versions_from_cell (malformedDelCell (strOf "X") (strOf "Y")) =
      (strOf "YX", [], true) := by
  simp [extract_text_versions_from_cell, malformedDelCell, allByTag,
    allByTagList, extractParas, extractChildren, extract_text_from_node,
    firstTextChild, strOf]

/-! ### C4: revision identifier allocation -/

theorem build_diff_parts_ids (date : Str) :
    ∀ (ops : List (String × Str)) (nid : Nat),
      ∃ k, emittedIds (build_diff_parts ops date nid).1 = List.range' nid k ∧
        (build_diff_parts ops date nid).2 = nid + k := by
  intro ops
  induction ops with
  | nil => intro nid; exact ⟨0, rfl, rfl⟩
  | cons hd rest ih =>
    intro nid
    match hd with
    | (op, text) =>
      rw [build_diff_parts]
      by_cases ht : text = []
      · simp only [if_pos ht]
        exact ih nid
      · simp only [if_neg ht]
        by_cases he : op = "equal"
        · simp only [if_pos he]
          obtain ⟨k, h1, h2⟩ := ih nid
          exact ⟨k, by simpa [emittedIds] using h1, by simpa using h2⟩
        · simp only [if_neg he]
          by_cases hdel : op = "delete"
          · simp only [if_pos hdel]
            obtain ⟨k, h1, h2⟩ := ih (nid + 1)
            refine ⟨k + 1, ?_, ?_⟩
            · show nid :: emittedIds (build_diff_parts rest date (nid + 1)).1 =
                List.range' nid (k + 1)
              rw [h1, List.range'_succ]
            · show (build_diff_parts rest date (nid + 1)).2 = nid + (k + 1)
              omega
          · simp only [if_neg hdel]
            by_cases hins : op = "insert"
            · simp only [if_pos hins]
              obtain ⟨k, h1, h2⟩ := ih (nid + 1)
              refine ⟨k + 1, ?_, ?_⟩
              · show nid :: emittedIds (build_diff_parts rest date (nid + 1)).1 =
                  List.range' nid (k + 1)
                rw [h1, List.range'_succ]
              · show (build_diff_parts rest date (nid + 1)).2 = nid + (k + 1)
                omega
            · simp only [if_neg hins]
              exact ih nid

theorem runEmitted_range (calls : List (List (String × Str) × Str)) :
    ∀ nid, ∃ k, runEmitted calls nid = List.range' nid k := by
  induction calls with
  | nil => intro nid; exact ⟨0, rfl⟩
  | cons c rest ih =>
    intro nid
    match c with
    | (ops, date) =>
      rw [runEmitted]
      obtain ⟨k1, h1, h2⟩ := build_diff_parts_ids date ops nid
      obtain ⟨k2, h3⟩ := ih (build_diff_parts ops date nid).2
      refine ⟨k2 + k1, ?_⟩
      rw [h1, h3, h2]
      exact List.range'_append_1 nid k1 k2

theorem mem_le_foldl_max (l : List Nat) : ∀ d ∈ l, d ≤ l.foldl max 0 := by
  have general : ∀ (l : List Nat) (acc : Nat),
      acc ≤ l.foldl max acc ∧ ∀ d ∈ l, d ≤ l.foldl max acc := by
    intro l
    induction l with
    | nil => intro acc; exact ⟨le_refl _, by simp⟩
    | cons x xs ih =>
      intro acc
      have h := ih (max acc x)
      constructor
      · exact le_trans (le_max_left acc x) h.1
      · intro d hd
        rcases List.mem_cons.mp hd with hd | hd
        · subst hd
          exact le_trans (le_max_right acc d) h.1
        · exact h.2 d hd
  exact fun d hd => (general l 0).2 d hd

/-- C4.  Every revision id emitted during one run (a sequence of
`_build_diff_xml` calls threading `next_revision_id`, starting from
`_get_next_revision_id()`) is strictly greater than every numeric
`w:id="…"` value found in the loaded `document.xml`, the emitted ids are
strictly increasing (hence never repeated), and with no ids present
allocation starts at 0. -/
theorem claim_C4_revision_ids (ids : List Nat)
    (calls : List (List (String × Str) × Str)) :
    (∀ e ∈ runEmitted calls (get_next_revision_id ids), ∀ d ∈ ids, d < e) ∧
    List.Pairwise (· < ·) (runEmitted calls (get_next_revision_id ids)) ∧
    (ids = [] → get_next_revision_id ids = 0) := by
  obtain ⟨k, hk⟩ := runEmitted_range calls (get_next_revision_id ids)
  refine ⟨?_, ?_, ?_⟩
  · intro e he d hd
    rw [hk] at he
    have h1 : get_next_revision_id ids ≤ e := (List.mem_range'_1.mp he).1
    have h2 : d ≤ ids.foldl max 0 := mem_le_foldl_max ids d hd
    have h3 : get_next_revision_id ids = ids.foldl max 0 + 1 := by
      cases ids with
      | nil => cases hd
      | cons x xs => rfl
    omega
  · rw [hk]
    exact List.pairwise_lt_range' _ _
  · intro h
    rw [h]
    rfl

/-- Witness for C4 at a concrete document and run. -/
theorem claim_C4_witness :
    (7 : Nat) < 8 ∧
    List.Pairwise (· < ·)
      (runEmitted [([("delete", strOf "x"), ("insert", strOf "y")], strOf "d")]
        (get_next_revision_id [3, 7])) :=
  ⟨(claim_C4_revision_ids [3, 7]
      [([("delete", strOf "x"), ("insert", strOf "y")], strOf "d")]).1 8
      (by decide) 7 (by decide),
   (claim_C4_revision_ids [3, 7]
      [([("delete", strOf "x"), ("insert", strOf "y")], strOf "d")]).2.1⟩

/-! ### C7: whitespace preservation -/

theorem escapeChar_ne_nil (c : Char) : escapeChar c ≠ [] := by
  unfold escapeChar
  split_ifs <;> simp [strOf]

theorem escape_xml_ne_nil (t : Str) (h : t ≠ []) : escape_xml t ≠ [] := by
  match t with
  | c :: cs =>
    simp only [escape_xml, List.flatMap_cons]
    intro hc
    exact escapeChar_ne_nil c (List.append_eq_nil.mp hc).1

/-- If the escaped text starts with a space, so does the raw text (the
escapement of a metacharacter starts with `&`). -/
theorem escape_head_space (t : Str) :
    (escape_xml t).head? = some ' ' → t.head? = some ' ' := by
  cases t with
  | nil => simp [escape_xml]
  | cons c cs =>
    intro h
    simp only [escape_xml, List.flatMap_cons] at h
    unfold escapeChar at h
    split_ifs at h with h1 h2 h3 h4 h5 <;> simp [strOf] at h <;> simp [h]

/-- If the escaped text ends with a space, so does the raw text (the
escapement of a metacharacter ends with `;`). -/
theorem escape_last_space : ∀ (t : Str),
    (escape_xml t).getLast? = some ' ' → t.getLast? = some ' ' := by
  intro t
  induction t with
  | nil => simp [escape_xml]
  | cons c cs ih =>
    intro h
    match hcs : cs with
    | [] =>
      simp only [escape_xml, List.flatMap_cons, List.flatMap_nil,
        List.append_nil] at h
      unfold escapeChar at h
      split_ifs at h with h1 h2 h3 h4 h5 <;> simp [strOf] at h <;> simp [h]
    | d :: ds =>
      simp only [escape_xml, List.flatMap_cons] at h ih
      rw [List.getLast?_append] at h
      have hne : escapeChar d ++ ds.flatMap escapeChar ≠ [] := by
        intro hc
        exact escapeChar_ne_nil d (List.append_eq_nil.mp hc).1
      cases hg : (escapeChar d ++ ds.flatMap escapeChar).getLast? with
      | none => exact absurd (List.getLast?_eq_none_iff.mp hg) hne
      | some x =>
        rw [hg] at h
        have hx : x = ' ' := by simpa [Option.or] using h
        subst hx
        have := ih hg
        rw [List.getLast?_cons_cons]
        exact this

/-- Every part built by `_build_diff_xml` carries exactly
`needsPreserve` of its raw text as its preserve flag. -/
theorem parts_preserve (date : Str) :
    ∀ (ops : List (String × Str)) (nid : Nat) (p : XmlPart),
      p ∈ (build_diff_parts ops date nid).1 →
      p.preserveOf = needsPreserve p.textOf := by
  intro ops
  induction ops with
  | nil => intro nid p hp; simp [build_diff_parts] at hp
  | cons hd rest ih =>
    intro nid p hp
    match hd with
    | (op, text) =>
      rw [build_diff_parts] at hp
      by_cases ht : text = []
      · rw [if_pos ht] at hp
        exact ih nid p hp
      · rw [if_neg ht] at hp
        by_cases he : op = "equal"
        · rw [if_pos he] at hp
          rcases List.mem_cons.mp hp with hp | hp
          · subst hp; rfl
          · exact ih nid p hp
        · rw [if_neg he] at hp
          by_cases hdel : op = "delete"
          · rw [if_pos hdel] at hp
            rcases List.mem_cons.mp hp with hp | hp
            · subst hp; rfl
            · exact ih (nid + 1) p hp
          · rw [if_neg hdel] at hp
            by_cases hins : op = "insert"
            · rw [if_pos hins] at hp
              rcases List.mem_cons.mp hp with hp | hp
              · subst hp; rfl
              · exact ih (nid + 1) p hp
            · rw [if_neg hins] at hp
              exact ih nid p hp

/-- C7.  Every text leaf emitted by `_build_diff_xml` whose (escaped)
content starts or ends with a space carries the explicit
`xml:space="preserve"` marker, and a token equal to a single space `" "`
survives synthesis: it is emitted as a leaf with the marker, not dropped. -/
theorem claim_C7_whitespace_preserve (ops : List (String × Str)) (date : Str)
    (nid : Nat) :
    (∀ p ∈ (build_diff_parts ops date nid).1,
      ((escape_xml p.textOf).head? = some ' ' ∨
       (escape_xml p.textOf).getLast? = some ' ') →
      p.preserveOf = true) ∧
    (∀ op ∈ ops, op.2 = strOf " " →
      (op.1 = "equal" ∨ op.1 = "delete" ∨ op.1 = "insert") →
      ∃ p ∈ (build_diff_parts ops date nid).1,
        p.textOf = strOf " " ∧ p.preserveOf = true) := by
  constructor
  · intro p hp hsp
    rw [parts_preserve date ops nid p hp]
    unfold needsPreserve
    rcases hsp with hsp | hsp
    · have := escape_head_space _ hsp
      simp [this]
    · have := escape_last_space _ hsp
      simp [this]
  · intro op hop htext htag
    induction ops generalizing nid with
    | nil => cases hop
    | cons hd rest ih =>
      match hd with
      | (op0, text0) =>
        rw [build_diff_parts]
        rcases List.mem_cons.mp hop with hop0 | hoprest
        · -- the single-space operation is the head
          subst hop0
          have htext' : text0 = strOf " " := htext
          rw [htext']
          have hne : ¬ (strOf " " = ([] : Str)) := by decide
          rw [if_neg hne]
          rcases htag with htag | htag | htag
          · have h0 : op0 = "equal" := htag
            rw [h0, if_pos rfl]
            refine ⟨XmlPart.run (strOf " ") (needsPreserve (strOf " ")),
              ?_, rfl, by show needsPreserve (strOf " ") = true; decide⟩
            simp
          · have h0 : op0 = "delete" := htag
            rw [h0, if_neg (by decide), if_pos rfl]
            refine ⟨XmlPart.del nid date (strOf " ") (needsPreserve (strOf " ")),
              ?_, rfl, by show needsPreserve (strOf " ") = true; decide⟩
            simp
          · have h0 : op0 = "insert" := htag
            rw [h0, if_neg (by decide), if_neg (by decide), if_pos rfl]
            refine ⟨XmlPart.ins nid date (strOf " ") (needsPreserve (strOf " ")),
              ?_, rfl, by show needsPreserve (strOf " ") = true; decide⟩
            simp
        · -- the operation is in the tail: membership lifts
          by_cases ht : text0 = []
          · rw [if_pos ht]
            exact ih nid hoprest
          · rw [if_neg ht]
            by_cases he : op0 = "equal"
            · rw [if_pos he]
              obtain ⟨p, hpm, hpt, hpp⟩ := ih nid hoprest
              exact ⟨p, List.mem_cons_of_mem _ hpm, hpt, hpp⟩
            · rw [if_neg he]
              by_cases hdel : op0 = "delete"
              · rw [if_pos hdel]
                obtain ⟨p, hpm, hpt, hpp⟩ := ih (nid + 1) hoprest
                exact ⟨p, List.mem_cons_of_mem _ hpm, hpt, hpp⟩
              · rw [if_neg hdel]
                by_cases hins : op0 = "insert"
                · rw [if_pos hins]
                  obtain ⟨p, hpm, hpt, hpp⟩ := ih (nid + 1) hoprest
                  exact ⟨p, List.mem_cons_of_mem _ hpm, hpt, hpp⟩
                · rw [if_neg hins]
                  exact ih nid hoprest

/-- Witness for C7 at a concrete script. -/
theorem claim_C7_witness :
    (XmlPart.run (strOf " x") true ∈
      (build_diff_parts [("equal", strOf " x")] (strOf "d") 5).1 →
      ((escape_xml (XmlPart.run (strOf " x") true).textOf).head? = some ' ' ∨
       (escape_xml (XmlPart.run (strOf " x") true).textOf).getLast? = some ' ') →
      (XmlPart.run (strOf " x") true).preserveOf = true) ∧
    (∃ p ∈ (build_diff_parts [("insert", strOf " ")] (strOf "d") 5).1,
      p.textOf = strOf " " ∧ p.preserveOf = true) :=
  ⟨fun hm hsp => (claim_C7_whitespace_preserve [("equal", strOf " x")]
      (strOf "d") 5).1 _ hm hsp,
   (claim_C7_whitespace_preserve [("insert", strOf " ")] (strOf "d") 5).2
      ("insert", strOf " ") (by decide) rfl (Or.inr (Or.inr rfl))⟩

/-- C10: a mapper result whose `target_after` is empty (the mapper emitted
the empty string, or the key was absent) is skipped before any processing:
the success count and document state produced by the batch are exactly
those obtained from the remaining rows alone, irrespective of that row's
`target_current` — an empty proposal can never erase a cell's text. -/
theorem claim_C10_empty_target_skipped (seg : Str → List Str) (jb : Bool)
    (rsid : Str) (findNode : Option Nat) (date : Str)
    (r : MappedResult) (rest : List MappedResult)
    (st : ApplierState) (count : Nat)
    (h : r.target_after = []) :
    apply_mapped_revisions seg jb rsid findNode date (r :: rest) st count =
      apply_mapped_revisions seg jb rsid findNode date rest st count := by
  conv_lhs => rw [apply_mapped_revisions]
  rw [if_pos h]

/-- Witness for C10: a row proposing to blank out a non-empty cell is
skipped. -/
theorem claim_C10_witness :
    (MappedResult.mk 0 (strOf "abc") []).target_after = ([] : Str) ∧
    apply_mapped_revisions (fun t => [t]) false (strOf "r") (some 0)
        (strOf "d") [MappedResult.mk 0 (strOf "abc") []] ⟨0, []⟩ 0 =
      apply_mapped_revisions (fun t => [t]) false (strOf "r") (some 0)
        (strOf "d") [] ⟨0, []⟩ 0 :=
  ⟨rfl, claim_C10_empty_target_skipped (fun t => [t]) false (strOf "r")
    (some 0) (strOf "d") (MappedResult.mk 0 (strOf "abc") []) [] ⟨0, []⟩ 0 rfl⟩

set_option maxRecDepth 400000 in
/-- C9 (counterexample).  For current text "AI is changing our life." and
target "AI has changed our life." the edit script does NOT delete the
phrase "is changing" as a single operation: the shared middle space token
splits the difference into two replace regions, so the script contains two
separate deletions ("is", "changing") and two separate insertions ("has",
"changed"), and the synthesized markup contains two `w:del` and two
`w:ins` spans — not exactly one of each as claimed. -/
theorem claim_C9_counterexample :
    word_diff (fun t => [t]) false (strOf "AI is changing our life.")
        (strOf "AI has changed our life.") =
      [("equal", strOf "AI "), ("delete", strOf "is"),
       ("insert", strOf "has"), ("equal", strOf " "),
       ("delete", strOf "changing"), ("insert", strOf "changed"),
       ("equal", strOf " our life.")] ∧
    ("delete", strOf "is changing") ∉
      word_diff (fun t => [t]) false (strOf "AI is changing our life.")
        (strOf "AI has changed our life.") ∧
    ((build_diff_parts
        (word_diff (fun t => [t]) false (strOf "AI is changing our life.")
          (strOf "AI has changed our life.")) (strOf "2024-01-01") 0).1.countP
        (fun p => match p with | XmlPart.del _ _ _ _ => true | _ => false)
      = 2) ∧
    ((build_diff_parts
        (word_diff (fun t => [t]) false (strOf "AI is changing our life.")
          (strOf "AI has changed our life.")) (strOf "2024-01-01") 0).1.countP
        (fun p => match p with | XmlPart.ins _ _ _ _ => true | _ => false)
      = 2) := by
  decide

set_option maxRecDepth 400000 in
/-- C9 (amended).  For current text "AI is changing our life." and target
"AI has changed our life." the edit script keeps "AI ", " " and
" our life." unchanged and performs two delete/insert pairs
("is"→"has" and "changing"→"changed"); for any date and starting revision
id `nid`, the synthesized markup consists of those seven parts in order,
carrying exactly the four revision ids `nid`, `nid+1`, `nid+2`, `nid+3`,
which are pairwise distinct (each span has a fresh identifier). -/
theorem claim_C9_two_revision_pairs (nid : Nat) (date : Str) :
    word_diff (fun t => [t]) false (strOf "AI is changing our life.")
        (strOf "AI has changed our life.") =
      [("equal", strOf "AI "), ("delete", strOf "is"),
       ("insert", strOf "has"), ("equal", strOf " "),
       ("delete", strOf "changing"), ("insert", strOf "changed"),
       ("equal", strOf " our life.")] ∧
    (build_diff_parts
      [("equal", strOf "AI "), ("delete", strOf "is"),
       ("insert", strOf "has"), ("equal", strOf " "),
       ("delete", strOf "changing"), ("insert", strOf "changed"),
       ("equal", strOf " our life.")] date nid).1 =
      [XmlPart.run (strOf "AI ") true,
       XmlPart.del nid date (strOf "is") false,
       XmlPart.ins (nid + 1) date (strOf "has") false,
       XmlPart.run (strOf " ") true,
       XmlPart.del (nid + 2) date (strOf "changing") false,
       XmlPart.ins (nid + 3) date (strOf "changed") false,
       XmlPart.run (strOf " our life.") true] ∧
    emittedIds (build_diff_parts
      [("equal", strOf "AI "), ("delete", strOf "is"),
       ("insert", strOf "has"), ("equal", strOf " "),
       ("delete", strOf "changing"), ("insert", strOf "changed"),
       ("equal", strOf " our life.")] date nid).1 =
      [nid, nid + 1, nid + 2, nid + 3] ∧
    List.Pairwise (· ≠ ·) [nid, nid + 1, nid + 2, nid + 3] := by
  exact ⟨by decide, rfl, rfl, by simp⟩

/-! ## C3: diffing a sequence against itself.

When `a = b = ts`, the dynamic program of `find_longest_match` only ever
stores diagonal best matches (`besti = bestj`), because every candidate
chain of length `k` ending at `(i, j)` is bounded by the length of the
non-popular run ending at `i` and at `j`, and the diagonal candidate of
each row is processed first (ascending `b2j` lists) with exactly that run
length.  The two extension loops then pull any diagonal best out to the
full sequence. -/

/-- Position `i` of `ts` holds a value that survives the popularity purge. -/
def nppAt (ts : List Tok) (i : Nat) : Bool :=
  match ts.get? i with
  | some x => !isPopular ts x
  | none => false

/-- Length of the maximal run of purge-surviving positions ending at `i`. -/
def runEnd (ts : List Tok) : Nat → Nat
  | 0 => if nppAt ts 0 then 1 else 0
  | i + 1 => if nppAt ts (i + 1) then runEnd ts i + 1 else 0

/-- `max` of `runEnd` over the rows strictly before `i`. -/
def maxRun (ts : List Tok) : Nat → Nat
  | 0 => 0
  | i + 1 => max (maxRun ts i) (runEnd ts i)

/-- `j ∈ b2j.get(a[i], [])` for `a = b = ts`. -/
def diagMem (ts : List Tok) (i j : Nat) : Bool :=
  match ts.get? i with
  | some x => decide (j ∈ b2j ts x)
  | none => false

/-- The `j2len` chain value produced at cell `(i, j)` when diffing `ts`
against itself. -/
def chainLen (ts : List Tok) : Nat → Nat → Nat
  | 0, j => if diagMem ts 0 j then 1 else 0
  | i + 1, j =>
    if diagMem ts (i + 1) j then
      (if j = 0 then 0 else chainLen ts i (j - 1)) + 1
    else 0

/-- Contents of `j2len` at the start of row `i`. -/
def crow (ts : List Tok) : Nat → Nat → Nat
  | 0, _ => 0
  | i + 1, j => chainLen ts i j

theorem mem_positions (ts : List Tok) (x : Tok) (j : Nat) :
    j ∈ positions ts x ↔ j < ts.length ∧ ts.get? j = some x := by
  simp [positions, List.mem_filter, List.mem_range]

theorem diagMem_spec (ts : List Tok) (i j : Nat)
    (h : diagMem ts i j = true) :
    nppAt ts i = true ∧ nppAt ts j = true ∧ j < ts.length := by
  unfold diagMem at h
  cases hget : ts.get? i with
  | none => rw [hget] at h; exact absurd h (by simp)
  | some x =>
    rw [hget] at h
    have hj : j ∈ b2j ts x := by simpa using h
    unfold b2j at hj
    by_cases hp : isPopular ts x = true
    · rw [if_pos hp] at hj; exact absurd hj (by simp)
    · rw [if_neg hp] at hj
      obtain ⟨hlt, hgj⟩ := (mem_positions ts x j).mp hj
      refine ⟨?_, ?_, hlt⟩
      · unfold nppAt; rw [hget]; simpa using hp
      · unfold nppAt; rw [hgj]; simpa using hp

theorem diagMem_self (ts : List Tok) (i : Nat) :
    diagMem ts i i = nppAt ts i := by
  unfold diagMem nppAt
  cases hget : ts.get? i with
  | none => rfl
  | some x =>
    have hlt : i < ts.length := (List.get?_eq_some.mp hget).1
    by_cases hp : isPopular ts x = true
    · simp [b2j, hp]
    · have hp' : isPopular ts x = false := by simpa using hp
      have h2 : ts[i]? = some x := by
        rw [← List.get?_eq_getElem?]; exact hget
      obtain ⟨_, hx⟩ := List.getElem?_eq_some.mp h2
      simp [b2j, hp', mem_positions, hlt, hget, hx]

theorem nppAt_runEnd_pos (ts : List Tok) (i : Nat)
    (h : nppAt ts i = true) : 1 ≤ runEnd ts i := by
  cases i with
  | zero => simp [runEnd, h]
  | succ n => simp [runEnd, h]

theorem chainLen_zero (ts : List Tok) (i j : Nat)
    (h : diagMem ts i j = false) : chainLen ts i j = 0 := by
  cases i with
  | zero => simp [chainLen, h]
  | succ n => simp [chainLen, h]

theorem chainLen_le (ts : List Tok) :
    ∀ i j, chainLen ts i j ≤ runEnd ts i ∧ chainLen ts i j ≤ runEnd ts j := by
  intro i
  induction i with
  | zero =>
    intro j
    by_cases h : diagMem ts 0 j = true
    · obtain ⟨hi, hj, _⟩ := diagMem_spec ts 0 j h
      have h1 := nppAt_runEnd_pos ts 0 hi
      have h2 := nppAt_runEnd_pos ts j hj
      simp only [chainLen, h, if_true]
      omega
    · rw [chainLen_zero ts 0 j (by simpa using h)]
      omega
  | succ n ih =>
    intro j
    by_cases h : diagMem ts (n + 1) j = true
    · obtain ⟨hi, hj, _⟩ := diagMem_spec ts (n + 1) j h
      cases j with
      | zero =>
        have h2 := nppAt_runEnd_pos ts 0 hj
        have h1 : runEnd ts (n + 1) = runEnd ts n + 1 := by
          simp [runEnd, hi]
        simp only [chainLen, h, if_true, if_pos rfl]
        omega
      | succ m =>
        have h1 : runEnd ts (n + 1) = runEnd ts n + 1 := by
          simp [runEnd, hi]
        have h2 : runEnd ts (m + 1) = runEnd ts m + 1 := by
          simp [runEnd, hj]
        have h3 := ih m
        simp only [chainLen, h, if_true, Nat.succ_ne_zero, if_false,
          Nat.add_sub_cancel]
        omega
    · rw [chainLen_zero ts (n + 1) j (by simpa using h)]
      omega

theorem chainLen_diag (ts : List Tok) :
    ∀ i, chainLen ts i i = runEnd ts i := by
  intro i
  induction i with
  | zero =>
    rw [show chainLen ts 0 0 = if diagMem ts 0 0 then 1 else 0 from rfl]
    rw [diagMem_self]
    rfl
  | succ n ih =>
    rw [show chainLen ts (n + 1) (n + 1) =
      (if diagMem ts (n + 1) (n + 1) then
        (if n + 1 = 0 then 0 else chainLen ts n (n + 1 - 1)) + 1
      else 0) from rfl]
    rw [diagMem_self]
    by_cases h : nppAt ts (n + 1) = true
    · simp only [h, if_true, Nat.succ_ne_zero, if_false, Nat.add_sub_cancel, ih]
      simp [runEnd, h]
    · simp only [Bool.not_eq_true] at h
      simp [h, runEnd]

theorem runEnd_le_maxRun (ts : List Tok) :
    ∀ i j, j < i → runEnd ts j ≤ maxRun ts i := by
  intro i
  induction i with
  | zero => intro j hj; omega
  | succ n ih =>
    intro j hj
    by_cases h : j < n
    · have := ih j h
      simp only [maxRun]
      omega
    · have hjn : j = n := by omega
      subst hjn
      simp only [maxRun]
      omega

theorem chain_k (ts : List Tok) (i j : Nat) (jold : Nat → Nat)
    (hold : ∀ j', jold j' = crow ts i j')
    (h : diagMem ts i j = true) :
    (if j = 0 then 0 else jold (j - 1)) + 1 = chainLen ts i j := by
  cases i with
  | zero =>
    by_cases hj : j = 0
    · subst hj; simp [chainLen, h]
    · simp [hj, hold, crow, chainLen, h]
  | succ n =>
    by_cases hj : j = 0
    · subst hj; simp [chainLen, h]
    · simp [hj, hold, crow, chainLen, h]

theorem matchAt_self (ts : List Tok) (i : Nat) (h : i < ts.length) :
    matchAt ts ts i i = true := by
  unfold matchAt
  cases hget : ts.get? i with
  | none =>
    have := List.get?_eq_get h
    rw [this] at hget
    exact absurd hget (by simp)
  | some x => simp

theorem flmInner_step (i blo bhi : Nat) (jold : Nat → Nat) (j : Nat)
    (js : List Nat) (jnew : Nat → Nat) (best : FlmBest)
    (h1 : ¬ j < blo) (h2 : ¬ bhi ≤ j) :
    flmInner i blo bhi jold (j :: js) jnew best =
      flmInner i blo bhi jold js
        (fun j' => if j' = j then (if j = 0 then 0 else jold (j - 1)) + 1
          else jnew j')
        (if best.bestsize < (if j = 0 then 0 else jold (j - 1)) + 1 then
          ⟨i + 1 - ((if j = 0 then 0 else jold (j - 1)) + 1),
           j + 1 - ((if j = 0 then 0 else jold (j - 1)) + 1),
           (if j = 0 then 0 else jold (j - 1)) + 1⟩
        else best) := by
  rw [flmInner, if_neg h1, if_neg h2]

theorem flmInner_diag (ts : List Tok) (i : Nat) (jold : Nat → Nat)
    (hold : ∀ j, jold j = crow ts i j) :
    ∀ (js : List Nat) (jnew : Nat → Nat) (best : FlmBest),
      (∀ j ∈ js, diagMem ts i j = true) →
      List.Pairwise (· < ·) js →
      (∀ j, j ∉ js → jnew j = chainLen ts i j) →
      best.besti = best.bestj →
      maxRun ts i ≤ best.bestsize →
      (runEnd ts i ≤ best.bestsize ∨ i ∈ js) →
      (∀ j, (flmInner i 0 ts.length jold js jnew best).1 j = chainLen ts i j) ∧
      (flmInner i 0 ts.length jold js jnew best).2.besti =
        (flmInner i 0 ts.length jold js jnew best).2.bestj ∧
      maxRun ts i ≤ (flmInner i 0 ts.length jold js jnew best).2.bestsize ∧
      runEnd ts i ≤ (flmInner i 0 ts.length jold js jnew best).2.bestsize := by
  intro js
  induction js with
  | nil =>
    intro jnew best hmem hsort hjn hdiag hmax hdisj
    rw [flmInner]
    refine ⟨fun j => hjn j (by simp), hdiag, hmax, ?_⟩
    rcases hdisj with h | h
    · exact h
    · exact absurd h (by simp)
  | cons j js ih =>
    intro jnew best hmem hsort hjn hdiag hmax hdisj
    have hdm : diagMem ts i j = true := hmem j (by simp)
    obtain ⟨hnpi, hnpj, hjlt⟩ := diagMem_spec ts i j hdm
    rw [flmInner_step i 0 ts.length jold j js jnew best (by omega) (by omega)]
    have hk : (if j = 0 then 0 else jold (j - 1)) + 1 = chainLen ts i j :=
      chain_k ts i j jold hold hdm
    rw [hk]
    have hmemT : ∀ j' ∈ js, diagMem ts i j' = true :=
      fun j' hj' => hmem j' (List.mem_cons_of_mem _ hj')
    have hsortT : List.Pairwise (· < ·) js := hsort.of_cons
    have hjnT : ∀ j', j' ∉ js →
        (fun j' => if j' = j then chainLen ts i j else jnew j') j' =
          chainLen ts i j' := by
      intro j' hj'
      by_cases hjj : j' = j
      · subst hjj; simp
      · simp only [hjj, if_false]
        exact hjn j' (by simp [hjj, hj'])
    have hjmax := (chainLen_le ts i j).1
    have hjmax2 := (chainLen_le ts i j).2
    by_cases hji : j = i
    · subst hji
      rw [chainLen_diag ts j] at *
      by_cases hfire : best.bestsize < runEnd ts j
      · rw [if_pos hfire]
        exact ih _ _ hmemT hsortT hjnT rfl
          (by show maxRun ts j ≤ runEnd ts j; omega)
          (Or.inl (le_refl _))
      · rw [if_neg hfire]
        exact ih _ _ hmemT hsortT hjnT hdiag hmax (by omega)
    · have hnofire : ¬ best.bestsize < chainLen ts i j := by
        by_cases hlt2 : j < i
        · have := runEnd_le_maxRun ts i j hlt2
          omega
        · have hgt : i < j := by omega
          have hnotin : i ∉ j :: js := by
            intro hcon
            rcases List.mem_cons.mp hcon with h | h
            · omega
            · have := List.rel_of_pairwise_cons hsort h
              omega
          rcases hdisj with h | h
          · omega
          · exact absurd h hnotin
      rw [if_neg hnofire]
      have hdisjT : runEnd ts i ≤ best.bestsize ∨ i ∈ js := by
        rcases hdisj with h | h
        · exact Or.inl h
        · rcases List.mem_cons.mp h with h2 | h2
          · omega
          · exact Or.inr h2
      exact ih _ _ hmemT hsortT hjnT hdiag hmax hdisjT

theorem runEnd_zero (ts : List Tok) (i : Nat) (h : nppAt ts i = false) :
    runEnd ts i = 0 := by
  cases i with
  | zero => simp [runEnd, h]
  | succ n => simp [runEnd, h]

theorem b2j_pairwise (ts : List Tok) (x : Tok) :
    List.Pairwise (· < ·) (b2j ts x) := by
  unfold b2j
  split
  · exact List.Pairwise.nil
  · exact List.Pairwise.sublist (List.filter_sublist _) (List.pairwise_lt_range _)

theorem flmOuter_diag (ts : List Tok) :
    ∀ (cnt i : Nat) (jold : Nat → Nat) (best : FlmBest),
      i + cnt = ts.length →
      (∀ j, jold j = crow ts i j) →
      best.besti = best.bestj →
      maxRun ts i ≤ best.bestsize →
      (flmOuter ts ts 0 ts.length i cnt jold best).besti =
        (flmOuter ts ts 0 ts.length i cnt jold best).bestj := by
  intro cnt
  induction cnt with
  | zero =>
    intro i jold best _ _ hdiag _
    rw [flmOuter]
    exact hdiag
  | succ n ih =>
    intro i jold best hin hold hdiag hmax
    rw [flmOuter]
    have hilt : i < ts.length := by omega
    obtain ⟨x, hget⟩ : ∃ x, ts.get? i = some x := by
      cases hg : ts.get? i with
      | none => exact absurd (List.get?_eq_none.mp hg) (by omega)
      | some y => exact ⟨y, rfl⟩
    have hjs : (match ts.get? i with
        | some x => b2j ts x
        | none => []) = b2j ts x := by rw [hget]
    rw [hjs]
    have hgetE : ts[i]? = some x := by
      rw [← List.get?_eq_getElem?]; exact hget
    have hmem : ∀ j ∈ b2j ts x, diagMem ts i j = true := by
      intro j hj
      simp [diagMem, hget, hgetE, hj]
    have hjn : ∀ j, j ∉ b2j ts x → (fun _ => 0) j = chainLen ts i j := by
      intro j hj
      symm
      apply chainLen_zero
      by_contra hc
      have hc2 : diagMem ts i j = true := by
        cases hdm : diagMem ts i j with
        | true => rfl
        | false => exact absurd hdm hc
      have : j ∈ b2j ts x := by
        unfold diagMem at hc2
        rw [hget] at hc2
        simpa using hc2
      exact hj this
    have hdisj : runEnd ts i ≤ best.bestsize ∨ i ∈ b2j ts x := by
      by_cases hnp : nppAt ts i = true
      · right
        have hds := diagMem_self ts i
        rw [hnp] at hds
        unfold diagMem at hds
        rw [hget] at hds
        simpa using hds
      · left
        rw [runEnd_zero ts i (by simpa using hnp)]
        omega
    have hinner := flmInner_diag ts i jold hold (b2j ts x) (fun _ => 0) best
      hmem (b2j_pairwise ts x) hjn hdiag hmax hdisj
    obtain ⟨hn1, hd2, hm2, hr2⟩ := hinner
    apply ih (i + 1) _ _ (by omega) hn1 hd2
    show maxRun ts (i + 1) ≤ _
    simp only [maxRun]
    omega

theorem extLeftN_diag (ts : List Tok) :
    ∀ d s, d + s ≤ ts.length →
      extLeftN ts ts 0 0 d d s = ⟨0, 0, s + d⟩ := by
  intro d
  induction d with
  | zero =>
    intro s h
    rw [extLeftN]
    rfl
  | succ n ih =>
    intro s h
    rw [extLeftN]
    rw [if_pos ⟨by omega, by omega,
      by show matchAt ts ts n (n + 1 - 1) = true
         exact matchAt_self ts n (by omega)⟩]
    rw [show n + 1 - 1 = n from rfl]
    rw [ih (s + 1) (by omega)]
    have harith : s + 1 + n = s + (n + 1) := by omega
    rw [harith]

theorem extRightN_diag (ts : List Tok) :
    ∀ fuel sz, sz + fuel = ts.length →
      extRightN ts ts ts.length 0 0 fuel sz = ⟨0, 0, ts.length⟩ := by
  intro fuel
  induction fuel with
  | zero =>
    intro sz h
    rw [extRightN]
    have hsz : sz = ts.length := by omega
    rw [hsz]
  | succ n ih =>
    intro sz h
    rw [extRightN]
    rw [if_pos ⟨by omega,
      by show matchAt ts ts (0 + sz) (0 + sz) = true
         have hz : 0 + sz = sz := by omega
         rw [hz]
         exact matchAt_self ts sz (by omega)⟩]
    exact ih (sz + 1) (by omega)

/-- Diffing a token list against itself: `find_longest_match` over the
full region returns the whole sequence as a single diagonal match. -/
theorem flm_identical (ts : List Tok) :
    find_longest_match ts ts 0 ts.length 0 ts.length =
      ⟨0, 0, ts.length⟩ := by
  unfold find_longest_match
  have hdiag := flmOuter_diag ts (ts.length - 0) 0 (fun _ => 0) ⟨0, 0, 0⟩
    (by omega) (fun j => rfl) rfl
    (by show maxRun ts 0 ≤ (0 : Nat); simp [maxRun])
  have hwf := flmOuter_wf ts ts 0 0 ts.length (ts.length - 0) 0 (fun _ => 0)
    ⟨0, 0, 0⟩ (le_refl 0) (by intro j hj; simp at hj)
    ⟨le_refl 0, le_refl 0, by show 0 + 0 ≤ 0; omega,
      by show 0 + 0 ≤ ts.length; omega⟩
  set m0 := flmOuter ts ts 0 ts.length 0 (ts.length - 0) (fun _ => 0)
    ⟨0, 0, 0⟩ with hm0
  obtain ⟨h1, h2, h3, h4⟩ := hwf
  have hds : m0.besti + m0.bestsize ≤ ts.length := by omega
  unfold extLeft
  rw [← hdiag]
  rw [extLeftN_diag ts m0.besti m0.bestsize (by omega)]
  unfold extRight
  show extRightN ts ts ts.length 0 0
    (ts.length - (0 + (m0.bestsize + m0.besti))) (m0.bestsize + m0.besti) =
    ⟨0, 0, ts.length⟩
  exact extRightN_diag ts _ _ (by omega)

theorem mbLoop_identical (ts : List Tok) (hn : 0 < ts.length) :
    mbLoop ts ts [(0, ts.length, 0, ts.length)] [] = [(0, 0, ts.length)] := by
  rw [mbLoop]
  rw [flm_identical]
  simp only [show (FlmBest.mk 0 0 ts.length).besti = 0 from rfl,
    show (FlmBest.mk 0 0 ts.length).bestj = 0 from rfl,
    show (FlmBest.mk 0 0 ts.length).bestsize = ts.length from rfl]
  rw [dif_pos hn]
  rw [if_neg (by omega), if_neg (by omega)]
  simp only [List.append_nil, List.nil_append]
  rw [mbLoop]

theorem gmb_identical (ts : List Tok) (hn : 0 < ts.length) :
    get_matching_blocks ts ts =
      [(0, 0, ts.length), (ts.length, ts.length, 0)] := by
  unfold get_matching_blocks
  rw [mbLoopF_eq ts ts _ _ _ (le_refl _), mbLoop_identical ts hn]
  rw [show List.insertionSort blkLe [((0 : Nat), (0 : Nat), ts.length)] =
    [((0 : Nat), (0 : Nat), ts.length)] from rfl]
  rw [mergeAdj]
  rw [if_pos (show (0 : Nat) + 0 = 0 ∧ (0 : Nat) + 0 = 0 from ⟨rfl, rfl⟩)]
  rw [mergeAdj]
  rw [if_pos (show 0 + ts.length ≠ 0 by omega)]
  simp

theorem get_opcodes_identical (ts : List Tok) (hn : 0 < ts.length) :
    get_opcodes ts ts = [("equal", 0, ts.length, 0, ts.length)] := by
  unfold get_opcodes
  rw [gmb_identical ts hn]
  rw [opLoop]
  rw [if_neg (by omega), if_neg (by omega), if_neg (by omega)]
  rw [if_pos (by omega : ts.length ≠ 0)]
  rw [opLoop]
  rw [if_neg (by omega), if_neg (by omega), if_neg (by omega)]
  rw [if_neg (by omega : ¬ (0 : Nat) ≠ 0)]
  rw [opLoop]
  simp

theorem word_diff_identical (seg : Str → List Str) (jb : Bool) (X : Str)
    (hseg : ∀ s, (seg s).flatten = s) (hX : X ≠ []) :
    word_diff seg jb X X = [("equal", X)] := by
  unfold word_diff
  have htok : (tokenize seg jb X).flatten = X := tokenize_join seg jb X hseg
  have hne : tokenize seg jb X ≠ [] := by
    intro h
    rw [h] at htok
    exact hX htok.symm
  have hn : 0 < (tokenize seg jb X).length := List.length_pos.mpr hne
  show (get_opcodes (tokenize seg jb X) (tokenize seg jb X)).flatMap
    (opcodeExpand (tokenize seg jb X) (tokenize seg jb X)) = [("equal", X)]
  rw [get_opcodes_identical _ hn]
  simp only [List.flatMap_cons, List.flatMap_nil, List.append_nil]
  unfold opcodeExpand
  rw [if_pos rfl]
  rw [show ("equal", 0, (tokenize seg jb X).length, 0,
    (tokenize seg jb X).length).2.1 = 0 from rfl]
  rw [show ("equal", (0 : Nat), (tokenize seg jb X).length, (0 : Nat),
    (tokenize seg jb X).length).2.2.1 = (tokenize seg jb X).length from rfl]
  rw [sliceJoin_full, htok]

/-- C3 (amended).  For every NON-EMPTY string `X` (and every lossless
segmenter), `word_diff X X` yields the single operation
`('equal', X)` spanning the whole text, and `apply_diff_to_row` on a row
whose current text equals its target returns success immediately without
touching the document (the state — in particular the `replace_node`
log — is unchanged).  The original claim's "every string" fails only for
the empty string, where the opcode list is empty (see the
counterexample). -/
theorem claim_C3_identity_diff (seg : Str → List Str) (jb : Bool) (X : Str)
    (hseg : ∀ s, (seg s).flatten = s) (hX : X ≠ []) :
    word_diff seg jb X X = [("equal", X)] ∧
    (∀ (rsid : Str) (findNode : Option Nat) (st : ApplierState) (date : Str),
      apply_diff_to_row seg jb rsid findNode st X X date = (true, st)) :=
  ⟨word_diff_identical seg jb X hseg hX,
   fun rsid findNode st date => by
    unfold apply_diff_to_row
    rw [if_pos rfl]⟩

/-- C3 (counterexample).  For the empty string the spec's "single
`Equal` op spanning the whole text" fails: `difflib` produces no
matching block of positive size, `get_opcodes` is empty, and `word_diff`
returns the empty operation list rather than a single equal
operation. -/
theorem claim_C3_counterexample :
    word_diff (fun t => [t]) false (strOf "") (strOf "") = [] ∧
    word_diff (fun t => [t]) false (strOf "") (strOf "") ≠
      [("equal", strOf "")] := by
  constructor
  · decide
  · decide

/-- Witness for C3 at the concrete input "hello world". -/
theorem claim_C3_witness :
    word_diff (fun t => [t]) false (strOf "hello world")
        (strOf "hello world") = [("equal", strOf "hello world")] ∧
    apply_diff_to_row (fun t => [t]) false (strOf "r") (some 0) ⟨7, []⟩
        (strOf "hello world") (strOf "hello world") (strOf "d") =
      (true, ⟨7, []⟩) :=
  ⟨(claim_C3_identity_diff (fun t => [t]) false (strOf "hello world")
      (fun s => by simp) (by decide)).1,
   (claim_C3_identity_diff (fun t => [t]) false (strOf "hello world")
      (fun s => by simp) (by decide)).2 (strOf "r") (some 0) ⟨7, []⟩
      (strOf "d")⟩
